import Mathlib

/-!
Verification of the CiteMesh search-caching and query-translation core.

This file shallowly embeds the relevant parts of the repository:

* `backend/app/services/search_cache.py` — `SearchCacheService.generate_cache_key`,
  `get_cached_results`, `save_to_cache`, `cleanup_expired_cache`;
* `backend/app/api/search.py` — the exception routing of the miss branch of
  `search_papers`;
* `hemal/backend/ai_query.py` — `_validate_translation`, `_extract_json_text`,
  `_create_fallback_request`, `_call_gemini` / `_call_llm` / `query_to_openalex`;
* `hemal/backend/openalex_client.py` — `OpenAlexClient._perform_request`.

Modelling conventions:

* Python strings are modelled as `List Char` (`Str`); Python string methods
  (`strip`, `lower`, `split`, `startswith`, slicing) are re-implemented on
  `List Char`.  `str.lower`/`str.strip` are modelled on their ASCII behaviour.
* JSON-serialisable Python values (`dict`/`list`/`str`/`int`/`bool`/`None`)
  are the inductive `J`.  Python `dict`s are association lists in insertion
  order; the fact that a `dict` has no duplicate keys becomes an explicit
  well-formedness hypothesis where it matters.
* `json.dumps(x, sort_keys=True)` is modelled as printing (`ser`) the
  canonicalisation (`canon`) of the value, where `canon` recursively sorts
  object keys; `json.loads(json.dumps(x))` round-tripping is modelled as the
  identity on `J`.
* `hashlib.md5(...).hexdigest()` is modelled as an injective function (the
  identity on the serialised bytes): the spec treats the digest as a
  collision-resistant fingerprint, and every claim about the cache key depends
  only on digests of equal inputs being equal and digests of distinct inputs
  being distinct, which is exactly the collision-free idealisation.
* `datetime.utcnow()` timestamps are integer seconds (`Int`); `timedelta
  (hours=h)` is `h * 3600`.
* Network and database side effects are explicit: HTTP attempt outcomes are
  passed as a function from the attempt index to an outcome, and the
  `search_cache` table is a `List SearchCache` threaded through the
  operations.
-/

/-! ## Python strings as `List Char` -/

/-- Python strings, modelled as lists of characters. -/
abbrev Str := List Char

/-- Whitespace for `str.strip` (space, tab, newline, carriage return,
vertical tab, form feed). -/
def pyIsSpace (c : Char) : Bool :=
  c = ' ' || c = '\t' || c = '\n' || c = '\r' || c = Char.ofNat 11 || c = Char.ofNat 12

/-- Python `str.strip()`: drop whitespace from both ends. -/
def pyStrip (s : Str) : Str :=
  ((s.dropWhile pyIsSpace).reverse.dropWhile pyIsSpace).reverse

/-- ASCII lower-casing of one character (model of `str.lower` per character). -/
def pyToLower (c : Char) : Char :=
  if 'A' ≤ c ∧ c ≤ 'Z' then Char.ofNat (c.toNat + 32) else c

/-- Python `str.lower()` (ASCII model). -/
def pyLower (s : Str) : Str := s.map pyToLower

/-- Lexicographic strict order on strings by code point, as Python compares
`str` values. -/
def strLt : Str → Str → Bool
  | [], [] => false
  | [], _ :: _ => true
  | _ :: _, [] => false
  | a :: as, b :: bs =>
    if a.toNat < b.toNat then true
    else if b.toNat < a.toNat then false
    else strLt as bs

/-- Lexicographic `≤` on strings by code point. -/
def strLe : Str → Str → Bool
  | [], _ => true
  | _ :: _, [] => false
  | a :: as, b :: bs =>
    if a.toNat < b.toNat then true
    else if b.toNat < a.toNat then false
    else strLe as bs

theorem strLe_total (a b : Str) : strLe a b = true ∨ strLe b a = true := by
  induction a generalizing b with
  | nil => left; simp [strLe]
  | cons x xs ih =>
    cases b with
    | nil => right; simp [strLe]
    | cons y ys =>
      by_cases h₁ : x.toNat < y.toNat
      · left; simp [strLe, h₁]
      · by_cases h₂ : y.toNat < x.toNat
        · right; simp [strLe, h₁, h₂]
        · rcases ih ys with h | h
          · left; simp [strLe, h₁, h₂, h]
          · right; simp [strLe, h₁, h₂, h]

theorem strLe_trans {a b c : Str} (hab : strLe a b = true) (hbc : strLe b c = true) :
    strLe a c = true := by
  induction a generalizing b c with
  | nil => simp [strLe]
  | cons x xs ih =>
    cases b with
    | nil => simp [strLe] at hab
    | cons y ys =>
      cases c with
      | nil => simp [strLe] at hbc
      | cons z zs =>
        simp only [strLe] at hab hbc ⊢
        by_cases hxy : x.toNat < y.toNat
        · by_cases hyz : y.toNat < z.toNat
          · simp [Nat.lt_trans hxy hyz]
          · by_cases hzy : z.toNat < y.toNat
            · simp [hyz, hzy] at hbc
            · have : y.toNat = z.toNat := Nat.le_antisymm (Nat.le_of_not_lt hzy) (Nat.le_of_not_lt hyz)
              simp [this ▸ hxy]
        · by_cases hyx : y.toNat < x.toNat
          · simp [hxy, hyx] at hab
          · have hxyeq : x.toNat = y.toNat := Nat.le_antisymm (Nat.le_of_not_lt hyx) (Nat.le_of_not_lt hxy)
            simp only [hxy, hyx, if_false, if_true, ite_self] at hab
            by_cases hyz : y.toNat < z.toNat
            · simp [hxyeq ▸ hyz]
            · by_cases hzy : z.toNat < y.toNat
              · simp [hyz, hzy] at hbc
              · simp only [hyz, hzy, if_false] at hbc
                have h3 := ih hab hbc
                have hxz : ¬ x.toNat < z.toNat := by omega
                have hzx : ¬ z.toNat < x.toNat := by omega
                simp [hxz, hzx, h3]

theorem strLt_asymm {a b : Str} (h : strLt a b = true) : strLt b a = false := by
  induction a generalizing b with
  | nil =>
    cases b with
    | nil => simp [strLt] at h
    | cons y ys => simp [strLt]
  | cons x xs ih =>
    cases b with
    | nil => simp [strLt] at h
    | cons y ys =>
      simp only [strLt] at h ⊢
      by_cases hxy : x.toNat < y.toNat
      · simp [Nat.lt_asymm hxy, hxy]
      · by_cases hyx : y.toNat < x.toNat
        · simp [hxy, hyx] at h
        · simp only [hxy, hyx, if_false] at h ⊢
          simp [ih h]

theorem strLe_of_strLt {a b : Str} (h : strLt a b = true) : strLe a b = true := by
  induction a generalizing b with
  | nil => simp [strLe]
  | cons x xs ih =>
    cases b with
    | nil => simp [strLt] at h
    | cons y ys =>
      simp only [strLt] at h
      simp only [strLe]
      by_cases hxy : x.toNat < y.toNat
      · simp [hxy]
      · by_cases hyx : y.toNat < x.toNat
        · simp [hxy, hyx] at h
        · simp only [hxy, hyx, if_false] at h ⊢
          exact ih h

theorem strLt_of_strLe_of_ne {a b : Str} (h : strLe a b = true) (hne : a ≠ b) :
    strLt a b = true := by
  induction a generalizing b with
  | nil =>
    cases b with
    | nil => exact absurd rfl hne
    | cons y ys => simp [strLt]
  | cons x xs ih =>
    cases b with
    | nil => simp [strLe] at h
    | cons y ys =>
      simp only [strLe] at h
      simp only [strLt]
      by_cases hxy : x.toNat < y.toNat
      · simp [hxy]
      · by_cases hyx : y.toNat < x.toNat
        · simp [hxy, hyx] at h
        · have hxyeq : x = y := by
            have h2 : x.toNat = y.toNat := Nat.le_antisymm (Nat.le_of_not_lt hyx) (Nat.le_of_not_lt hxy)
            rw [← Char.ofNat_toNat x, ← Char.ofNat_toNat y, h2]
          simp only [hxy, hyx, if_false] at h ⊢
          apply ih h
          intro hc; exact hne (by rw [hxyeq, hc])

/-! ## Decimal printing of integers (Python `repr` of `int`) -/

/-- The decimal digit character for `d < 10`. -/
def digitCh (d : Nat) : Char := Char.ofNat (48 + d)

/-- Fuel-driven decimal printing of a natural number (most significant digit
first).  The fuel is only a structural-recursion bound; `natStr` supplies
enough fuel for any input. -/
def natStrAux : Nat → Nat → List Char
  | 0, _ => []
  | f + 1, n => if n < 10 then [digitCh n] else natStrAux f (n / 10) ++ [digitCh (n % 10)]

/-- Decimal representation of a natural number, as Python prints it. -/
def natStr (n : Nat) : List Char := natStrAux (n + 1) n

/-- Decimal representation of an integer, as Python prints it. -/
def intStr : Int → List Char
  | Int.ofNat n => natStr n
  | Int.negSucc n => '-' :: natStr (n + 1)

/-- Numeric value of a list of decimal digit characters. -/
def digitsVal (ds : List Char) : Nat :=
  ds.foldl (fun acc c => acc * 10 + (c.toNat - 48)) 0

theorem toNat_ofNat_valid (n : Nat) (h : n.isValidChar) : (Char.ofNat n).toNat = n := by
  simp only [Char.ofNat, dif_pos h, Char.ofNatAux, Char.toNat]
  rfl

theorem toNat_digitCh (d : Nat) (h : d < 10) : (digitCh d).toNat = 48 + d := by
  exact toNat_ofNat_valid _ (Or.inl (by omega))

theorem uint32_le_iff (a b : UInt32) : a ≤ b ↔ a.toNat ≤ b.toNat := by
  rw [UInt32.le_def, BitVec.le_def]
  rfl

theorem isDigit_digitCh (d : Nat) (h : d < 10) : (digitCh d).isDigit = true := by
  have h2 := toNat_digitCh d h
  simp only [Char.toNat] at h2
  simp only [Char.isDigit, decide_eq_true_eq, Bool.and_eq_true, ge_iff_le]
  constructor <;> rw [uint32_le_iff, h2]
  · show 48 ≤ 48 + d
    omega
  · show 48 + d ≤ 57
    omega

theorem natStrAux_eq_natStr (f n : Nat) (h : n < f) : natStrAux f n = natStr n := by
  induction n using Nat.strong_induction_on generalizing f with
  | _ n ih =>
    match f, h with
    | f + 1, h =>
      by_cases h10 : n < 10
      · simp [natStrAux, natStr, h10]
      · have hd : n / 10 < n := Nat.div_lt_self (by omega) (by omega)
        have e1 : natStrAux (f + 1) n = natStrAux f (n / 10) ++ [digitCh (n % 10)] := by
          simp [natStrAux, h10]
        have e2 : natStr n = natStrAux n (n / 10) ++ [digitCh (n % 10)] := by
          simp [natStr, natStrAux, h10]
        rw [e1, e2, ih (n / 10) hd f (by omega), ih (n / 10) hd n hd]

theorem natStr_lt10 (n : Nat) (h : n < 10) : natStr n = [digitCh n] := by
  simp [natStr, natStrAux, h]

theorem natStr_ge10 (n : Nat) (h : 10 ≤ n) : natStr n = natStr (n / 10) ++ [digitCh (n % 10)] := by
  have hd : n / 10 < n := Nat.div_lt_self (by omega) (by omega)
  have e2 : natStr n = natStrAux n (n / 10) ++ [digitCh (n % 10)] := by
    simp [natStr, natStrAux, show ¬ n < 10 by omega]
  rw [e2, natStrAux_eq_natStr n (n / 10) hd]

theorem natStr_all_digits (n : Nat) : ∀ c ∈ natStr n, c.isDigit = true := by
  induction n using Nat.strong_induction_on with
  | _ n ih =>
    by_cases h10 : n < 10
    · rw [natStr_lt10 n h10]
      intro c hc
      simp only [List.mem_singleton] at hc
      exact hc ▸ isDigit_digitCh n h10
    · rw [natStr_ge10 n (by omega)]
      intro c hc
      rcases List.mem_append.mp hc with h | h
      · exact ih (n / 10) (Nat.div_lt_self (by omega) (by omega)) c h
      · simp only [List.mem_singleton] at h
        exact h ▸ isDigit_digitCh (n % 10) (Nat.mod_lt _ (by omega))

theorem natStr_ne_nil (n : Nat) : natStr n ≠ [] := by
  by_cases h10 : n < 10
  · rw [natStr_lt10 n h10]; simp
  · rw [natStr_ge10 n (by omega)]; simp

theorem digitsVal_append_one (ds : List Char) (c : Char) :
    digitsVal (ds ++ [c]) = digitsVal ds * 10 + (c.toNat - 48) := by
  simp [digitsVal, List.foldl_append]

theorem digitsVal_natStr (n : Nat) : digitsVal (natStr n) = n := by
  induction n using Nat.strong_induction_on with
  | _ n ih =>
    by_cases h10 : n < 10
    · rw [natStr_lt10 n h10]
      simp [digitsVal, toNat_digitCh n h10]
    · rw [natStr_ge10 n (by omega), digitsVal_append_one,
        ih (n / 10) (Nat.div_lt_self (by omega) (by omega)),
        toNat_digitCh (n % 10) (Nat.mod_lt _ (by omega))]
      omega

theorem natStr_inj {a b : Nat} (h : natStr a = natStr b) : a = b := by
  rw [← digitsVal_natStr a, ← digitsVal_natStr b, h]

/-- A continuation cannot start with a decimal digit (the condition under
which a printed integer is uniquely delimited in its context). -/
def NumFol (r : List Char) : Prop :=
  match r with
  | [] => True
  | c :: _ => c.isDigit = false

theorem numFol_nil : NumFol [] := trivial

/-- Maximal-munch uniqueness for runs of digit characters. -/
theorem digits_pre {x y r₁ r₂ : List Char}
    (hx : ∀ c ∈ x, c.isDigit = true) (hy : ∀ c ∈ y, c.isDigit = true)
    (f₁ : NumFol r₁) (f₂ : NumFol r₂) (h : x ++ r₁ = y ++ r₂) : x = y ∧ r₁ = r₂ := by
  induction x generalizing y with
  | nil =>
    cases y with
    | nil => exact ⟨rfl, h⟩
    | cons c cs =>
      simp only [List.nil_append, List.cons_append] at h
      have hc : c.isDigit = true := hy c (by simp)
      subst h
      simp only [NumFol] at f₁
      rw [hc] at f₁
      exact absurd f₁ (by simp)
  | cons c cs ih =>
    cases y with
    | nil =>
      simp only [List.cons_append, List.nil_append] at h
      have hc : c.isDigit = true := hx c (by simp)
      rw [← h] at f₂
      simp only [NumFol] at f₂
      rw [hc] at f₂
      exact absurd f₂ (by simp)
    | cons d ds =>
      simp only [List.cons_append] at h
      injection h with h1 h2
      have := ih (fun e he => hx e (by simp [he])) (fun e he => hy e (by simp [he])) h2
      exact ⟨by rw [h1, this.1], this.2⟩

theorem natStr_pre {a b : Nat} {r₁ r₂ : List Char}
    (f₁ : NumFol r₁) (f₂ : NumFol r₂) (h : natStr a ++ r₁ = natStr b ++ r₂) :
    a = b ∧ r₁ = r₂ := by
  have := digits_pre (natStr_all_digits a) (natStr_all_digits b) f₁ f₂ h
  exact ⟨natStr_inj this.1, this.2⟩

theorem natStr_head_digit (n : Nat) :
    ∃ c t, natStr n = c :: t ∧ c.isDigit = true := by
  rcases hn : natStr n with _ | ⟨c, t⟩
  · exact absurd hn (natStr_ne_nil n)
  · exact ⟨c, t, rfl, natStr_all_digits n c (by rw [hn]; simp)⟩

theorem intStr_pre {a b : Int} {r₁ r₂ : List Char}
    (f₁ : NumFol r₁) (f₂ : NumFol r₂) (h : intStr a ++ r₁ = intStr b ++ r₂) :
    a = b ∧ r₁ = r₂ := by
  cases a with
  | ofNat a =>
    cases b with
    | ofNat b =>
      simp only [intStr] at h
      have := natStr_pre f₁ f₂ h
      exact ⟨by rw [this.1], this.2⟩
    | negSucc b =>
      simp only [intStr, List.cons_append] at h
      obtain ⟨c, t, hct, hd⟩ := natStr_head_digit a
      rw [hct] at h
      injection h with h1 _
      rw [h1] at hd
      simp at hd
  | negSucc a =>
    cases b with
    | ofNat b =>
      simp only [intStr, List.cons_append] at h
      obtain ⟨c, t, hct, hd⟩ := natStr_head_digit b
      rw [hct] at h
      injection h with h1 _
      rw [← h1] at hd
      simp at hd
    | negSucc b =>
      simp only [intStr, List.cons_append] at h
      injection h with _ h2
      have h3 := natStr_pre f₁ f₂ h2
      have hab : a = b := by have h4 := h3.1; omega
      exact ⟨by rw [hab], h3.2⟩

/-! ## JSON-serialisable Python values -/

/-- JSON-serialisable Python values: `None`, `bool`, `int`, `str`, `list`,
`dict`.  A `dict` is its association list in insertion order. -/
inductive J where
  | null
  | bool (b : Bool)
  | int (n : Int)
  | str (s : Str)
  | arr (xs : List J)
  | obj (kvs : List (Str × J))

/-- Lower-case hexadecimal digit, as Python's `json` module prints in
`\uXXXX` escapes. -/
def hexDigitCh (d : Nat) : Char :=
  if d < 10 then Char.ofNat (48 + d) else Char.ofNat (87 + d)

/-- Four lower-case hex digits of `n % 0x10000`. -/
def hex4 (n : Nat) : List Char :=
  [hexDigitCh (n / 4096 % 16), hexDigitCh (n / 256 % 16),
   hexDigitCh (n / 16 % 16), hexDigitCh (n % 16)]

/-- Escape of a single character inside a JSON string literal, following
`json.dumps`: `"`/`\`/newline/tab/carriage-return/backspace/form-feed get
two-character escapes, remaining control characters get `\u00XX`, and every
other character stands for itself.  (The `ensure_ascii` re-encoding of
non-ASCII characters is an injective re-encoding that does not affect any
claim and is not modelled.) -/
def escChar (c : Char) : List Char :=
  if c = '"' then ['\\', '"']
  else if c = '\\' then ['\\', '\\']
  else if c = '\n' then ['\\', 'n']
  else if c = '\t' then ['\\', 't']
  else if c = '\r' then ['\\', 'r']
  else if c = Char.ofNat 8 then ['\\', 'b']
  else if c = Char.ofNat 12 then ['\\', 'f']
  else if c.toNat < 32 then '\\' :: 'u' :: hex4 c.toNat
  else [c]

/-- Escaped body of a JSON string literal. -/
def escStr (s : Str) : List Char := (s.map escChar).flatten

/-- A JSON string literal: quote, escaped body, quote. -/
def serStr (s : Str) : List Char := '"' :: (escStr s ++ ['"'])

mutual

/-- Serialisation of a value in `json.dumps` default format: separators
`", "` between items and `": "` after keys.  `ser`/`serItems`/`serPairs`
print a value, the body of an array, and the body of an object. -/
def ser : J → List Char
  | .null => "null".data
  | .bool true => "true".data
  | .bool false => "false".data
  | .int n => intStr n
  | .str s => serStr s
  | .arr xs => '[' :: (serItems xs ++ [']'])
  | .obj kvs => Char.ofNat 123 :: (serPairs kvs ++ [Char.ofNat 125])

def serItems : List J → List Char
  | [] => []
  | [x] => ser x
  | x :: y :: xs => ser x ++ ',' :: ' ' :: serItems (y :: xs)

def serPairs : List (Str × J) → List Char
  | [] => []
  | [(k, v)] => serStr k ++ ':' :: ' ' :: ser v
  | (k, v) :: q :: ps => serStr k ++ ':' :: ' ' :: ser v ++ ',' :: ' ' :: serPairs (q :: ps)

end

/-- Ordering of object entries by key, as `sort_keys=True` sorts. -/
def keyLe (p q : Str × J) : Prop := strLe p.1 q.1 = true

instance : DecidableRel keyLe := fun p q =>
  inferInstanceAs (Decidable (strLe p.1 q.1 = true))

instance : IsTotal (Str × J) keyLe := ⟨fun p q => strLe_total p.1 q.1⟩

instance : IsTrans (Str × J) keyLe := ⟨fun _ _ _ h h2 => strLe_trans h h2⟩

/-- Strict version of `keyLe`, used to identify sorted duplicate-free lists. -/
def keyLt (p q : Str × J) : Prop := strLt p.1 q.1 = true

instance : IsAntisymm (Str × J) keyLt :=
  ⟨fun p q h h2 => by
    simp only [keyLt] at h h2
    rw [strLt_asymm h] at h2
    exact absurd h2 (by simp)⟩

/-- Sorting of object entries by key (`sort_keys=True`). -/
def sortKeys (l : List (Str × J)) : List (Str × J) := List.insertionSort keyLe l

mutual

/-- Recursive canonicalisation: sort the keys of every object.
`json.dumps(x, sort_keys=True)` is `ser (canon x)`. -/
def canon : J → J
  | .arr xs => .arr (canonList xs)
  | .obj kvs => .obj (sortKeys (canonPairs kvs))
  | v => v

def canonList : List J → List J
  | [] => []
  | x :: xs => canon x :: canonList xs

def canonPairs : List (Str × J) → List (Str × J)
  | [] => []
  | (k, v) :: ps => (k, canon v) :: canonPairs ps

end

/-! ## Uniqueness of the serialisation -/

/-- Value of a lower-case hexadecimal digit character. -/
def unhex (c : Char) : Option Nat :=
  if 48 ≤ c.toNat ∧ c.toNat ≤ 57 then some (c.toNat - 48)
  else if 97 ≤ c.toNat ∧ c.toNat ≤ 102 then some (c.toNat - 87)
  else none

/-- One-step decoder for the body of a JSON string literal: reads one
(possibly escaped) character. -/
def unesc : List Char → Option (Char × List Char)
  | [] => none
  | c :: r =>
    if c = '\\' then
      match r with
      | '"' :: r2 => some ('"', r2)
      | '\\' :: r2 => some ('\\', r2)
      | 'n' :: r2 => some ('\n', r2)
      | 't' :: r2 => some ('\t', r2)
      | 'r' :: r2 => some ('\r', r2)
      | 'b' :: r2 => some (Char.ofNat 8, r2)
      | 'f' :: r2 => some (Char.ofNat 12, r2)
      | 'u' :: h1 :: h2 :: h3 :: h4 :: r2 =>
        match unhex h1, unhex h2, unhex h3, unhex h4 with
        | some d1, some d2, some d3, some d4 =>
          some (Char.ofNat (((d1 * 16 + d2) * 16 + d3) * 16 + d4), r2)
        | _, _, _, _ => none
      | _ => none
    else some (c, r)

theorem unhex_hexDigitCh (d : Nat) (h : d < 16) : unhex (hexDigitCh d) = some d := by
  by_cases h10 : d < 10
  · have ht : (hexDigitCh d).toNat = 48 + d := by
      simp only [hexDigitCh, if_pos h10]
      exact toNat_ofNat_valid _ (Or.inl (by omega))
    simp only [unhex, ht]
    rw [if_pos (by omega)]
    simp [Nat.add_sub_cancel_left]
  · have ht : (hexDigitCh d).toNat = 87 + d := by
      simp only [hexDigitCh, if_neg h10]
      exact toNat_ofNat_valid _ (Or.inl (by omega))
    simp only [unhex, ht]
    rw [if_neg (by omega), if_pos (by omega)]
    simp

theorem unesc_escChar (c : Char) (r : List Char) :
    unesc (escChar c ++ r) = some (c, r) := by
  by_cases h1 : c = '"'
  · subst h1; rfl
  by_cases h2 : c = '\\'
  · subst h2; rfl
  by_cases h3 : c = '\n'
  · subst h3; rfl
  by_cases h4 : c = '\t'
  · subst h4; rfl
  by_cases h5 : c = '\r'
  · subst h5; rfl
  by_cases h6 : c = Char.ofNat 8
  · subst h6; rfl
  by_cases h7 : c = Char.ofNat 12
  · subst h7; rfl
  by_cases h8 : c.toNat < 32
  · have hesc : escChar c = '\\' :: 'u' :: hex4 c.toNat := by
      simp [escChar, h1, h2, h3, h4, h5, h6, h7, h8]
    rw [hesc]
    have e1 : c.toNat / 4096 % 16 = 0 := by omega
    have e2 : c.toNat / 256 % 16 = 0 := by omega
    have e3 : c.toNat / 16 % 16 < 16 := by omega
    have e4 : c.toNat % 16 < 16 := by omega
    simp only [hex4, List.cons_append, List.nil_append, unesc, if_pos rfl,
      e1, e2, unhex_hexDigitCh _ (by omega : (0:Nat) < 16),
      unhex_hexDigitCh _ e3, unhex_hexDigitCh _ e4]
    have : ((0 * 16 + 0) * 16 + c.toNat / 16 % 16) * 16 + c.toNat % 16 = c.toNat := by omega
    rw [this, Char.ofNat_toNat]
    simp
  · have hesc : escChar c = [c] := by
      simp [escChar, h1, h2, h3, h4, h5, h6, h7, h8]
    rw [hesc]
    simp only [List.cons_append, List.nil_append, unesc, if_neg h2]

theorem escChar_head (c : Char) : ∃ d t, escChar c = d :: t ∧ d ≠ '"' := by
  by_cases h1 : c = '"'
  · exact ⟨'\\', _, by rw [h1]; rfl, by decide⟩
  by_cases h2 : c = '\\'
  · exact ⟨'\\', _, by rw [h2]; rfl, by decide⟩
  by_cases h3 : c = '\n'
  · exact ⟨'\\', _, by rw [h3]; rfl, by decide⟩
  by_cases h4 : c = '\t'
  · exact ⟨'\\', _, by rw [h4]; rfl, by decide⟩
  by_cases h5 : c = '\r'
  · exact ⟨'\\', _, by rw [h5]; rfl, by decide⟩
  by_cases h6 : c = Char.ofNat 8
  · exact ⟨'\\', _, by rw [h6]; rfl, by decide⟩
  by_cases h7 : c = Char.ofNat 12
  · exact ⟨'\\', _, by rw [h7]; rfl, by decide⟩
  by_cases h8 : c.toNat < 32
  · exact ⟨'\\', 'u' :: hex4 c.toNat, by simp [escChar, h1, h2, h3, h4, h5, h6, h7, h8], by decide⟩
  · exact ⟨c, [], by simp [escChar, h1, h2, h3, h4, h5, h6, h7, h8], h1⟩

theorem escStr_cons (c : Char) (s : Str) : escStr (c :: s) = escChar c ++ escStr s := by
  simp [escStr]

/-- Escaped string bodies are uniquely decodable up to the closing quote. -/
theorem esc_pre {s s' : Str} {r r' : List Char}
    (h : escStr s ++ '"' :: r = escStr s' ++ '"' :: r') : s = s' ∧ r = r' := by
  induction s generalizing s' r r' with
  | nil =>
    cases s' with
    | nil =>
      simp only [escStr, List.map_nil, List.flatten_nil, List.nil_append] at h
      exact ⟨rfl, by injection h⟩
    | cons c cs =>
      exfalso
      rw [escStr_cons] at h
      obtain ⟨d, t, hdt, hne⟩ := escChar_head c
      rw [hdt] at h
      simp only [escStr, List.map_nil, List.flatten_nil, List.nil_append,
        List.cons_append] at h
      injection h with h1 _
      exact hne h1.symm
  | cons c cs ih =>
    cases s' with
    | nil =>
      exfalso
      rw [escStr_cons] at h
      obtain ⟨d, t, hdt, hne⟩ := escChar_head c
      rw [hdt] at h
      simp only [escStr, List.map_nil, List.flatten_nil, List.nil_append,
        List.cons_append] at h
      injection h with h1 _
      exact hne h1
    | cons c' cs' =>
      rw [escStr_cons, escStr_cons, List.append_assoc, List.append_assoc] at h
      have h2 := congrArg unesc h
      rw [unesc_escChar, unesc_escChar] at h2
      injection h2 with h3
      injection h3 with h4 h5
      obtain ⟨h6, h7⟩ := ih h5
      exact ⟨by rw [h4, h6], h7⟩

/-- JSON string literals are self-delimiting. -/
theorem serStr_pre {s s' : Str} {r r' : List Char}
    (h : serStr s ++ r = serStr s' ++ r') : s = s' ∧ r = r' := by
  simp only [serStr, List.cons_append, List.append_assoc] at h
  injection h with _ h2
  exact esc_pre h2

theorem sizeOf_J_pos (v : J) : 0 < sizeOf v := by
  cases v <;> simp_arith

/-- Constructor tag of a value (both booleans share a tag; the twoheads
`t`/`f` are separated in the diagonal case instead). -/
def jTag : J → Nat
  | .null => 0
  | .bool _ => 1
  | .str _ => 3
  | .arr _ => 4
  | .obj _ => 5
  | .int _ => 6

/-- Tag determined by the first character of a serialised value. -/
def chTag (c : Char) : Nat :=
  if c = 'n' then 0
  else if c = 't' then 1
  else if c = 'f' then 1
  else if c = '"' then 3
  else if c = '[' then 4
  else if c = Char.ofNat 123 then 5
  else 6

theorem chTag_digit {c : Char} (h : c.isDigit = true) : chTag c = 6 := by
  unfold chTag
  split_ifs with g1 g2 g3 g4 g5 g6
  · exact absurd (g1 ▸ h) (by decide)
  · exact absurd (g2 ▸ h) (by decide)
  · exact absurd (g3 ▸ h) (by decide)
  · exact absurd (g4 ▸ h) (by decide)
  · exact absurd (g5 ▸ h) (by decide)
  · exact absurd (g6 ▸ h) (by decide)
  · rfl

theorem digit_ne {c : Char} (h : c.isDigit = true) {x : Char} (hx : x.isDigit = false) :
    c ≠ x := by
  intro he
  rw [he, hx] at h
  exact absurd h (by simp)

theorem ser_head (v : J) :
    ∃ c t, ser v = c :: t ∧ chTag c = jTag v ∧ c ≠ ']' := by
  cases v with
  | null => exact ⟨'n', ['u', 'l', 'l'], by simp [ser], by decide, by decide⟩
  | bool b =>
    cases b with
    | true => exact ⟨'t', ['r', 'u', 'e'], by simp [ser], by decide, by decide⟩
    | false => exact ⟨'f', ['a', 'l', 's', 'e'], by simp [ser], by decide, by decide⟩
  | int n =>
    cases n with
    | ofNat a =>
      obtain ⟨c, t, e, hd⟩ := natStr_head_digit a
      exact ⟨c, t, by simp [ser, intStr, e], by rw [chTag_digit hd]; rfl,
        digit_ne hd (by decide)⟩
    | negSucc a =>
      exact ⟨'-', natStr (a + 1), by simp [ser, intStr], rfl, by decide⟩
  | str s => exact ⟨'"', escStr s ++ ['"'], by simp [ser, serStr], rfl, by decide⟩
  | arr xs => exact ⟨'[', serItems xs ++ [']'], by simp [ser], rfl, by decide⟩
  | obj kvs =>
    exact ⟨Char.ofNat 123, serPairs kvs ++ [Char.ofNat 125], by simp [ser], rfl, by decide⟩

theorem ser_same_tag {v w : J} {r₁ r₂ : List Char}
    (h : ser v ++ r₁ = ser w ++ r₂) : jTag v = jTag w := by
  obtain ⟨c, t, e, hc, _⟩ := ser_head v
  obtain ⟨c', t', e', hc', _⟩ := ser_head w
  rw [e, e'] at h
  simp only [List.cons_append] at h
  injection h with h1 _
  rw [← hc, ← hc', h1]

theorem serItems_cons_append (y : J) (ys : List J) (X : List Char) :
    serItems (y :: ys) ++ X =
      ser y ++ (match ys with
        | [] => X
        | _ :: _ => ',' :: ' ' :: (serItems ys ++ X)) := by
  cases ys with
  | nil => simp [serItems]
  | cons z zs => simp [serItems, List.append_assoc]

theorem serPairs_cons_append (k : Str) (v : J) (ps : List (Str × J)) (X : List Char) :
    serPairs ((k, v) :: ps) ++ X =
      serStr k ++ (':' :: ' ' :: (ser v ++ (match ps with
        | [] => X
        | _ :: _ => ',' :: ' ' :: (serPairs ps ++ X)))) := by
  cases ps with
  | nil => simp [serPairs, List.append_assoc]
  | cons q qs => simp [serPairs, List.append_assoc]

theorem serItems_pre (n : Nat)
    (ih : ∀ v w r₁ r₂, sizeOf v ≤ n → NumFol r₁ → NumFol r₂ →
      ser v ++ r₁ = ser w ++ r₂ → v = w ∧ r₁ = r₂) :
    ∀ (xs ys : List J) (r₁ r₂ : List Char), sizeOf xs ≤ n →
      serItems xs ++ ']' :: r₁ = serItems ys ++ ']' :: r₂ → xs = ys ∧ r₁ = r₂ := by
  intro xs
  induction xs with
  | nil =>
    intro ys r₁ r₂ _ h
    cases ys with
    | nil =>
      simp only [serItems, List.nil_append] at h
      exact ⟨rfl, by injection h⟩
    | cons y ys' =>
      exfalso
      rw [serItems_cons_append] at h
      obtain ⟨c, t, e, _, hne⟩ := ser_head y
      rw [e] at h
      simp only [serItems, List.nil_append, List.cons_append] at h
      injection h with h1 _
      exact hne h1.symm
  | cons x xs' ihx =>
    intro ys r₁ r₂ hs h
    cases ys with
    | nil =>
      exfalso
      rw [serItems_cons_append] at h
      obtain ⟨c, t, e, _, hne⟩ := ser_head x
      rw [e] at h
      simp only [serItems, List.nil_append, List.cons_append] at h
      injection h with h1 _
      exact hne h1
    | cons y ys' =>
      rw [serItems_cons_append, serItems_cons_append] at h
      simp only [List.cons.sizeOf_spec] at hs
      cases xs' with
      | nil =>
        cases ys' with
        | nil =>
          obtain ⟨hxy, hr⟩ := ih x y _ _ (by omega)
            (by simp only [NumFol]; decide) (by simp only [NumFol]; decide) h
          injection hr with _ hr2
          exact ⟨by rw [hxy], hr2⟩
        | cons z zs =>
          obtain ⟨_, hr⟩ := ih x y _ _ (by omega)
            (by simp only [NumFol]; decide) (by simp only [NumFol]; decide) h
          exfalso
          injection hr with hr1 _
          exact absurd hr1 (by decide)
      | cons u us =>
        cases ys' with
        | nil =>
          obtain ⟨_, hr⟩ := ih x y _ _ (by omega)
            (by simp only [NumFol]; decide) (by simp only [NumFol]; decide) h
          exfalso
          injection hr with hr1 _
          exact absurd hr1 (by decide)
        | cons z zs =>
          obtain ⟨hxy, hr⟩ := ih x y _ _ (by omega)
            (by simp only [NumFol]; decide) (by simp only [NumFol]; decide) h
          injection hr with _ hr2
          injection hr2 with _ hr3
          obtain ⟨htl, hr4⟩ := ihx (z :: zs) r₁ r₂ (by omega) hr3
          exact ⟨by rw [hxy, htl], hr4⟩

theorem serPairs_pre (n : Nat)
    (ih : ∀ v w r₁ r₂, sizeOf v ≤ n → NumFol r₁ → NumFol r₂ →
      ser v ++ r₁ = ser w ++ r₂ → v = w ∧ r₁ = r₂) :
    ∀ (ps qs : List (Str × J)) (r₁ r₂ : List Char), sizeOf ps ≤ n →
      serPairs ps ++ Char.ofNat 125 :: r₁ = serPairs qs ++ Char.ofNat 125 :: r₂ →
      ps = qs ∧ r₁ = r₂ := by
  intro ps
  induction ps with
  | nil =>
    intro qs r₁ r₂ _ h
    cases qs with
    | nil =>
      simp only [serPairs, List.nil_append] at h
      exact ⟨rfl, by injection h⟩
    | cons q qs' =>
      exfalso
      obtain ⟨k, v⟩ := q
      rw [serPairs_cons_append] at h
      simp only [serPairs, serStr, List.nil_append, List.cons_append] at h
      injection h with h1 _
      exact absurd h1 (by decide)
  | cons p ps' ihp =>
    intro qs r₁ r₂ hs h
    obtain ⟨k, v⟩ := p
    cases qs with
    | nil =>
      exfalso
      rw [serPairs_cons_append] at h
      simp only [serPairs, serStr, List.nil_append, List.cons_append] at h
      injection h with h1 _
      exact absurd h1 (by decide)
    | cons q qs' =>
      obtain ⟨k', v'⟩ := q
      rw [serPairs_cons_append, serPairs_cons_append] at h
      obtain ⟨hk, h2⟩ := serStr_pre h
      injection h2 with _ h3
      injection h3 with _ h4
      simp only [List.cons.sizeOf_spec, Prod.mk.sizeOf_spec] at hs
      cases ps' with
      | nil =>
        cases qs' with
        | nil =>
          obtain ⟨hv, hr⟩ := ih v v' _ _ (by omega)
            (by simp only [NumFol]; decide) (by simp only [NumFol]; decide) h4
          injection hr with _ hr2
          exact ⟨by rw [hk, hv], hr2⟩
        | cons z zs =>
          obtain ⟨_, hr⟩ := ih v v' _ _ (by omega)
            (by simp only [NumFol]; decide) (by simp only [NumFol]; decide) h4
          exfalso
          injection hr with hr1 _
          exact absurd hr1 (by decide)
      | cons u us =>
        cases qs' with
        | nil =>
          obtain ⟨_, hr⟩ := ih v v' _ _ (by omega)
            (by simp only [NumFol]; decide) (by simp only [NumFol]; decide) h4
          exfalso
          injection hr with hr1 _
          exact absurd hr1 (by decide)
        | cons z zs =>
          obtain ⟨hv, hr⟩ := ih v v' _ _ (by omega)
            (by simp only [NumFol]; decide) (by simp only [NumFol]; decide) h4
          injection hr with _ hr2
          injection hr2 with _ hr3
          obtain ⟨htl, hr4⟩ := ihp (z :: zs) r₁ r₂ (by omega) hr3
          exact ⟨by rw [hk, hv, htl], hr4⟩

/-- Prefix-uniqueness of the serialisation: in any context whose continuation
does not start with a digit, a serialised value determines the value and the
continuation. -/
theorem ser_pre :
    ∀ (n : Nat) (v w : J) (r₁ r₂ : List Char), sizeOf v ≤ n → NumFol r₁ → NumFol r₂ →
      ser v ++ r₁ = ser w ++ r₂ → v = w ∧ r₁ = r₂ := by
  intro n
  induction n with
  | zero =>
    intro v _ _ _ hs
    have := sizeOf_J_pos v
    omega
  | succ n ih =>
    intro v w r₁ r₂ hs f₁ f₂ heq
    have htag := ser_same_tag heq
    cases v with
    | null =>
      cases w with
      | null =>
        simp only [ser, List.cons_append, List.nil_append] at heq
        injection heq with _ h2
        injection h2 with _ h3
        injection h3 with _ h4
        injection h4 with _ h5
        exact ⟨rfl, h5⟩
      | bool b => exact absurd htag (by cases b <;> simp [jTag])
      | int m => exact absurd htag (by simp [jTag])
      | str s => exact absurd htag (by simp [jTag])
      | arr xs => exact absurd htag (by simp [jTag])
      | obj kvs => exact absurd htag (by simp [jTag])
    | bool b =>
      cases w with
      | null => exact absurd htag (by cases b <;> simp [jTag])
      | bool b' =>
        cases b with
        | true =>
          cases b' with
          | true =>
            simp only [ser, List.cons_append, List.nil_append] at heq
            injection heq with _ h2
            injection h2 with _ h3
            injection h3 with _ h4
            injection h4 with _ h5
            exact ⟨rfl, h5⟩
          | false =>
            exfalso
            simp only [ser, List.cons_append, List.nil_append] at heq
            injection heq with h1 _
            exact absurd h1 (by decide)
        | false =>
          cases b' with
          | true =>
            exfalso
            simp only [ser, List.cons_append, List.nil_append] at heq
            injection heq with h1 _
            exact absurd h1 (by decide)
          | false =>
            simp only [ser, List.cons_append, List.nil_append] at heq
            injection heq with _ h2
            injection h2 with _ h3
            injection h3 with _ h4
            injection h4 with _ h5
            injection h5 with _ h6
            exact ⟨rfl, h6⟩
      | int m => exact absurd htag (by cases b <;> simp [jTag])
      | str s => exact absurd htag (by cases b <;> simp [jTag])
      | arr xs => exact absurd htag (by cases b <;> simp [jTag])
      | obj kvs => exact absurd htag (by cases b <;> simp [jTag])
    | int a =>
      cases w with
      | null => exact absurd htag (by simp [jTag])
      | bool b => exact absurd htag (by cases b <;> simp [jTag])
      | int m =>
        simp only [ser] at heq
        obtain ⟨h1, h2⟩ := intStr_pre f₁ f₂ heq
        exact ⟨by rw [h1], h2⟩
      | str s => exact absurd htag (by simp [jTag])
      | arr xs => exact absurd htag (by simp [jTag])
      | obj kvs => exact absurd htag (by simp [jTag])
    | str s =>
      cases w with
      | null => exact absurd htag (by simp [jTag])
      | bool b => exact absurd htag (by cases b <;> simp [jTag])
      | int m => exact absurd htag (by simp [jTag])
      | str s' =>
        simp only [ser] at heq
        obtain ⟨h1, h2⟩ := serStr_pre heq
        exact ⟨by rw [h1], h2⟩
      | arr xs => exact absurd htag (by simp [jTag])
      | obj kvs => exact absurd htag (by simp [jTag])
    | arr xs =>
      cases w with
      | null => exact absurd htag (by simp [jTag])
      | bool b => exact absurd htag (by cases b <;> simp [jTag])
      | int m => exact absurd htag (by simp [jTag])
      | str s => exact absurd htag (by simp [jTag])
      | arr ys =>
        simp only [ser, List.cons_append, List.append_assoc, List.singleton_append] at heq
        injection heq with _ h2
        simp only [J.arr.sizeOf_spec] at hs
        obtain ⟨h3, h4⟩ := serItems_pre n ih xs ys r₁ r₂ (by omega) h2
        exact ⟨by rw [h3], h4⟩
      | obj kvs => exact absurd htag (by simp [jTag])
    | obj kvs =>
      cases w with
      | null => exact absurd htag (by simp [jTag])
      | bool b => exact absurd htag (by cases b <;> simp [jTag])
      | int m => exact absurd htag (by simp [jTag])
      | str s => exact absurd htag (by simp [jTag])
      | arr ys => exact absurd htag (by simp [jTag])
      | obj kvs' =>
        simp only [ser, List.cons_append, List.append_assoc, List.singleton_append] at heq
        injection heq with _ h2
        simp only [J.obj.sizeOf_spec] at hs
        obtain ⟨h3, h4⟩ := serPairs_pre n ih kvs kvs' r₁ r₂ (by omega) h2
        exact ⟨by rw [h3], h4⟩

/-- The serialisation is injective. -/
theorem ser_inj {a b : J} (h : ser a = ser b) : a = b :=
  (ser_pre (sizeOf a) a b [] [] le_rfl trivial trivial (by simpa using h)).1

/-! ## Canonicalisation and key-order equivalence -/

mutual

/-- Well-formedness of a value as produced by Python: every object (dict)
has pairwise distinct keys, recursively. -/
def WFJ : J → Prop
  | .arr xs => WFList xs
  | .obj kvs => (kvs.map Prod.fst).Nodup ∧ WFPairs kvs
  | _ => True

def WFList : List J → Prop
  | [] => True
  | x :: xs => WFJ x ∧ WFList xs

def WFPairs : List (Str × J) → Prop
  | [] => True
  | p :: ps => WFJ p.2 ∧ WFPairs ps

end

mutual

/-- Equality of JSON content up to the insertion order of object keys,
recursively (`KeyPerm a b`: `b` is `a` with object entries permuted at any
depth). -/
def KeyPerm : J → J → Prop
  | .null, .null => True
  | .bool a, .bool b => a = b
  | .int a, .int b => a = b
  | .str a, .str b => a = b
  | .arr xs, .arr ys => KPList xs ys
  | .obj ps, .obj qs => ∃ mid, KPPairs ps mid ∧ mid.Perm qs
  | _, _ => False

def KPList : List J → List J → Prop
  | [], [] => True
  | x :: xs, y :: ys => KeyPerm x y ∧ KPList xs ys
  | _, _ => False

def KPPairs : List (Str × J) → List (Str × J) → Prop
  | [], [] => True
  | p :: ps, q :: qs => p.1 = q.1 ∧ KeyPerm p.2 q.2 ∧ KPPairs ps qs
  | _, _ => False

end

theorem sortKeys_perm (l : List (Str × J)) : (sortKeys l).Perm l :=
  List.perm_insertionSort keyLe l

theorem sortKeys_sorted (l : List (Str × J)) : List.Sorted keyLe (sortKeys l) :=
  List.sorted_insertionSort keyLe l

theorem sorted_keyLt {l : List (Str × J)} (hs : List.Sorted keyLe l)
    (hn : (l.map Prod.fst).Nodup) : List.Sorted keyLt l := by
  have hne : List.Pairwise (fun p q : Str × J => p.1 ≠ q.1) l := by
    rw [List.Nodup, List.pairwise_map] at hn
    exact hn
  exact (List.Pairwise.and hs hne).imp fun h => strLt_of_strLe_of_ne h.1 h.2

theorem sortKeys_eq_of_perm {l₁ l₂ : List (Str × J)} (hp : l₁.Perm l₂)
    (hn : (l₁.map Prod.fst).Nodup) : sortKeys l₁ = sortKeys l₂ := by
  have hn₂ : (l₂.map Prod.fst).Nodup := ((hp.map Prod.fst).nodup_iff).mp hn
  have hns₁ : ((sortKeys l₁).map Prod.fst).Nodup :=
    (((sortKeys_perm l₁).map Prod.fst).nodup_iff).mpr hn
  have hns₂ : ((sortKeys l₂).map Prod.fst).Nodup :=
    (((sortKeys_perm l₂).map Prod.fst).nodup_iff).mpr hn₂
  exact List.eq_of_perm_of_sorted
    ((sortKeys_perm l₁).trans (hp.trans (sortKeys_perm l₂).symm))
    (sorted_keyLt (sortKeys_sorted l₁) hns₁)
    (sorted_keyLt (sortKeys_sorted l₂) hns₂)

theorem canonPairs_eq_map (l : List (Str × J)) :
    canonPairs l = l.map (fun p => (p.1, canon p.2)) := by
  induction l with
  | nil => simp [canonPairs]
  | cons p ps ih =>
    obtain ⟨k, v⟩ := p
    simp [canonPairs, ih]

theorem kpPairs_keys {ps mid : List (Str × J)} (h : KPPairs ps mid) :
    ps.map Prod.fst = mid.map Prod.fst := by
  induction ps generalizing mid with
  | nil =>
    cases mid with
    | nil => rfl
    | cons q qs => simp [KPPairs] at h
  | cons p ps' ih =>
    cases mid with
    | nil => simp [KPPairs] at h
    | cons q qs =>
      rw [KPPairs] at h
      simp [h.1, ih h.2.2]

/-- Python truthiness of a JSON value (`None`, `False`, `0`, `""`, `[]`,
`{}` are falsy). -/
def jFalsy : J → Bool
  | .null => true
  | .bool b => !b
  | .int n => decide (n = 0)
  | .str s => s.isEmpty
  | .arr xs => xs.isEmpty
  | .obj kvs => kvs.isEmpty

theorem keyPerm_falsy : ∀ {a b : J}, KeyPerm a b → jFalsy a = jFalsy b := by
  intro a b h
  cases a <;> cases b <;> simp only [KeyPerm] at h
  case null.null => rfl
  case bool.bool x y => rw [h]
  case int.int x y => rw [h]
  case str.str x y => rw [h]
  case arr.arr xs ys =>
    cases xs <;> cases ys
    · rfl
    · simp [KPList] at h
    · simp [KPList] at h
    · rfl
  case obj.obj ps qs =>
    obtain ⟨mid, h1, h2⟩ := h
    cases ps with
    | nil =>
      cases mid with
      | nil =>
        have h3 := h2.nil_eq
        simp [jFalsy, ← h3]
      | cons q qs2 => simp [KPPairs] at h1
    | cons p ps2 =>
      cases mid with
      | nil => simp [KPPairs] at h1
      | cons q qs2 =>
        cases qs with
        | nil => exact absurd h2.symm.nil_eq (by simp)
        | cons r rs => rfl

theorem canonPairs_keys (l : List (Str × J)) :
    (canonPairs l).map Prod.fst = l.map Prod.fst := by
  rw [canonPairs_eq_map, List.map_map]
  rfl

theorem canonList_congr (n : Nat)
    (ih : ∀ a b, sizeOf a ≤ n → WFJ a → KeyPerm a b → canon a = canon b) :
    ∀ xs ys, sizeOf xs ≤ n → WFList xs → KPList xs ys → canonList xs = canonList ys := by
  intro xs
  induction xs with
  | nil =>
    intro ys _ _ h
    cases ys with
    | nil => rfl
    | cons y ys' => simp [KPList] at h
  | cons x xs' ihx =>
    intro ys hs hw h
    cases ys with
    | nil => simp [KPList] at h
    | cons y ys' =>
      simp only [KPList] at h
      simp only [WFList] at hw
      simp only [List.cons.sizeOf_spec] at hs
      simp only [canonList]
      rw [ih x y (by omega) hw.1 h.1, ihx ys' (by omega) hw.2 h.2]

theorem canonPairs_congr (n : Nat)
    (ih : ∀ a b, sizeOf a ≤ n → WFJ a → KeyPerm a b → canon a = canon b) :
    ∀ ps mid, sizeOf ps ≤ n → WFPairs ps → KPPairs ps mid → canonPairs ps = canonPairs mid := by
  intro ps
  induction ps with
  | nil =>
    intro mid _ _ h
    cases mid with
    | nil => rfl
    | cons q qs => simp [KPPairs] at h
  | cons p ps' ihp =>
    intro mid hs hw h
    cases mid with
    | nil => simp [KPPairs] at h
    | cons q qs =>
      simp only [KPPairs] at h
      simp only [WFPairs] at hw
      obtain ⟨k, v⟩ := p
      obtain ⟨k', v'⟩ := q
      simp only [List.cons.sizeOf_spec, Prod.mk.sizeOf_spec] at hs
      simp only at h
      simp only [canonPairs]
      rw [h.1, ih v v' (by omega) hw.1 h.2.1, ihp qs (by omega) hw.2 h.2.2]

theorem canon_keyPerm_aux :
    ∀ (n : Nat) (a b : J), sizeOf a ≤ n → WFJ a → KeyPerm a b → canon a = canon b := by
  intro n
  induction n with
  | zero =>
    intro a _ hs
    have := sizeOf_J_pos a
    omega
  | succ n ih =>
    intro a b hs hw h
    cases a <;> cases b <;> simp only [KeyPerm] at h
    case null.null => rfl
    case bool.bool x y => rw [h]
    case int.int x y => rw [h]
    case str.str x y => rw [h]
    case arr.arr xs ys =>
      simp only [J.arr.sizeOf_spec] at hs
      simp only [WFJ] at hw
      simp only [canon]
      rw [canonList_congr n ih xs ys (by omega) hw h]
    case obj.obj ps qs =>
      obtain ⟨mid, h1, h2⟩ := h
      simp only [J.obj.sizeOf_spec] at hs
      simp only [WFJ] at hw
      simp only [canon]
      rw [canonPairs_congr n ih ps mid (by omega) hw.2 h1]
      congr 1
      apply sortKeys_eq_of_perm
      · rw [canonPairs_eq_map, canonPairs_eq_map]
        exact h2.map _
      · rw [canonPairs_keys, ← kpPairs_keys h1]
        exact hw.1

/-- Canonicalisation identifies values that differ only in object key
order. -/
theorem canon_keyPerm {a b : J} (hw : WFJ a) (h : KeyPerm a b) : canon a = canon b :=
  canon_keyPerm_aux (sizeOf a) a b le_rfl hw h

/-! ## `SearchCacheService.generate_cache_key` -/

/-- Model of `hashlib.md5(...).hexdigest()`: an injective fingerprint of the
serialised bytes, idealised as the identity (the spec's collision-free
digest assumption; only equality and inequality of digests matter to the
claims). -/
def md5hex (s : Str) : Str := s

/-- Python `filters or {}`: a falsy filter value (`None` is modelled as the
absent option; an empty dict is falsy) is replaced by the empty dict. -/
def pyOrEmptyDict : Option J → J
  | none => .obj []
  | some f => if jFalsy f then .obj [] else f

/-- `SearchCacheService.generate_cache_key` (search_cache.py lines 39-51):
normalise the query (`strip` + `lower`), build
`{"query": ..., "filters": filters or {}}`, serialise it with
`json.dumps(..., sort_keys=True)` and hash the bytes. -/
def generate_cache_key (query : Str) (filters : Option J) : Str :=
  md5hex (ser (canon (J.obj
    [("query".data, J.str (pyLower (pyStrip query))),
     ("filters".data, pyOrEmptyDict filters)])))

theorem canon_str (s : Str) : canon (J.str s) = J.str s := by
  simp [canon]

theorem sortKeys_qf (x y : J) :
    sortKeys [("query".data, x), ("filters".data, y)] =
      [("filters".data, y), ("query".data, x)] := by
  simp only [sortKeys, List.insertionSort, List.orderedInsert]
  rw [if_neg]
  intro hc
  simp only [keyLe] at hc
  exact absurd hc (by decide)

theorem gck_eval (q : Str) (f : Option J) :
    generate_cache_key q f =
      ser (J.obj [("filters".data, canon (pyOrEmptyDict f)),
                  ("query".data, J.str (pyLower (pyStrip q)))]) := by
  unfold generate_cache_key md5hex
  have h1 : canon (J.obj
      [("query".data, J.str (pyLower (pyStrip q))),
       ("filters".data, pyOrEmptyDict f)]) =
      J.obj [("filters".data, canon (pyOrEmptyDict f)),
             ("query".data, J.str (pyLower (pyStrip q)))] := by
    simp only [canon, canonPairs, canon_str]
    exact congrArg J.obj (sortKeys_qf _ _)
  rw [h1]

/-- C1: cache-key derivation is deterministic and insensitive to filter key
order: deriving the fingerprint twice yields the same value; two calls whose
queries agree after trimming and lower-casing and whose filter content is
equal up to (nested) insertion order of dict keys produce the identical
fingerprint; and two non-empty filters with different content produce
different fingerprints. -/
theorem claim_C1 :
    (∀ (q : Str) (f : Option J), generate_cache_key q f = generate_cache_key q f) ∧
    (∀ (q q' : Str) (f f' : J), pyLower (pyStrip q) = pyLower (pyStrip q') →
      WFJ f → KeyPerm f f' →
      generate_cache_key q (some f) = generate_cache_key q' (some f')) ∧
    (∀ (q : Str) (f f' : J), jFalsy f = false → jFalsy f' = false →
      canon f ≠ canon f' →
      generate_cache_key q (some f) ≠ generate_cache_key q (some f')) := by
  refine ⟨fun q f => rfl, ?_, ?_⟩
  · intro q q' f f' hq hw hkp
    rw [gck_eval, gck_eval, hq]
    have hfal := keyPerm_falsy hkp
    have h2 : canon (pyOrEmptyDict (some f)) = canon (pyOrEmptyDict (some f')) := by
      cases hf : jFalsy f with
      | true =>
        have hf2 : jFalsy f' = true := by rw [← hfal, hf]
        simp [pyOrEmptyDict, hf, hf2]
      | false =>
        have hf2 : jFalsy f' = false := by rw [← hfal, hf]
        simp [pyOrEmptyDict, hf, hf2, canon_keyPerm hw hkp]
    rw [h2]
  · intro q f f' hf hf' hne heq
    rw [gck_eval, gck_eval] at heq
    have h2 := ser_inj heq
    injection h2 with h3
    injection h3 with h4 _
    injection h4 with _ h5
    apply hne
    simpa [pyOrEmptyDict, hf, hf'] using h5

theorem claim_C1_witness :
    generate_cache_key "  AI ".data
        (some (J.obj [("b".data, J.int 1), ("a".data, J.int 2)])) =
      generate_cache_key "ai".data
        (some (J.obj [("a".data, J.int 2), ("b".data, J.int 1)])) :=
  claim_C1.2.1 "  AI ".data "ai".data
    (J.obj [("b".data, J.int 1), ("a".data, J.int 2)])
    (J.obj [("a".data, J.int 2), ("b".data, J.int 1)])
    (by decide)
    (by simp [WFJ, WFPairs])
    (by
      simp only [KeyPerm]
      exact ⟨[("b".data, J.int 1), ("a".data, J.int 2)],
        by simp [KPPairs, KeyPerm],
        List.Perm.swap ("a".data, J.int 2) ("b".data, J.int 1) []⟩)

/-- C10: deriving the cache key with no filter object and with an explicitly
empty filter object yields the identical fingerprint. -/
theorem claim_C10 (q : Str) :
    generate_cache_key q none = generate_cache_key q (some (J.obj [])) := rfl

/-! ## `SearchCacheService`: cache store (search_cache.py) -/

/-- A row of the `search_cache` table (`models_enhanced.SearchCache`).
Timestamps are integer seconds; `results_json` holds the stored payload
(`json.loads (json.dumps x) = x` is modelled as the identity on `J`). -/
structure SearchCache where
  id : Nat
  query_hash : Str
  query_text : Str
  filters_json : Option J
  results_json : J
  total_results : J
  page : Int
  per_page : Int
  created_at : Int
  expires_at : Int
  hit_count : Nat
  last_accessed_at : Option Int
  api_response_time_ms : Option Int

/-- The `WHERE` clause of the lookup query: hash, page and page size match
and the entry has not expired (`expires_at > now`). -/
def rowMatches (h : Str) (page per_page : Int) (now : Int) (r : SearchCache) : Bool :=
  decide (r.query_hash = h) && decide (r.page = page) &&
    decide (r.per_page = per_page) && decide (now < r.expires_at)

/-- The `UPDATE search_cache SET hit_count = hit_count + 1,
last_accessed_at = :now WHERE id = :cache_id` statement. -/
def bumpHit (db : List SearchCache) (cacheId : Nat) (now : Int) : List SearchCache :=
  db.map fun r =>
    if r.id = cacheId then
      { r with hit_count := r.hit_count + 1, last_accessed_at := some now }
    else r

/-- `SearchCacheService.get_cached_results` (search_cache.py lines 53-112):
derive the key, select one live row matching `(query_hash, page, per_page)`,
and on a hit bump its hit counter and last-access time before returning the
parsed payload.  Returns the payload (or `none`) and the updated table. -/
def get_cached_results (db : List SearchCache) (query : Str) (filters : Option J)
    (page per_page : Int) (now : Int) : Option J × List SearchCache :=
  let query_hash := generate_cache_key query filters
  match db.find? (rowMatches query_hash page per_page now) with
  | none => (none, db)
  | some r => (some r.results_json, bumpHit db r.id now)

/-- `results.get('meta', {}).get('count', 0)`. -/
def metaCount (results : J) : J :=
  match results with
  | .obj kvs =>
    match (kvs.find? fun p => decide (p.1 = "meta".data)).map Prod.snd with
    | some (.obj mkvs) =>
      match (mkvs.find? fun p => decide (p.1 = "count".data)).map Prod.snd with
      | some v => v
      | none => .int 0
    | some _ => .int 0
    | none => .int 0
  | _ => .int 0

/-- `SearchCacheService.save_to_cache` (search_cache.py lines 114-157):
insert a fresh row whose TTL defaults to 24 hours when `ttl_hours` is absent
or zero (`ttl_hours or DEFAULT_CACHE_TTL_HOURS`), with `hit_count = 0`.
`newId` stands for the database-assigned primary key. -/
def save_to_cache (db : List SearchCache) (query : Str) (filters : Option J)
    (results : J) (page per_page : Int) (api_response_time_ms : Option Int)
    (ttl_hours : Option Int) (now : Int) (newId : Nat) :
    SearchCache × List SearchCache :=
  let query_hash := generate_cache_key query filters
  let ttl : Int := match ttl_hours with
    | none => 24
    | some t => if t = 0 then 24 else t
  let expires_at := now + ttl * 3600
  let cache_entry : SearchCache :=
    { id := newId
      query_hash := query_hash
      query_text := query.take 500
      filters_json := match filters with
        | none => none
        | some f => if jFalsy f then none else some f
      results_json := results
      total_results := metaCount results
      page := page
      per_page := per_page
      created_at := now
      expires_at := expires_at
      hit_count := 0
      last_accessed_at := none
      api_response_time_ms := api_response_time_ms }
  (cache_entry, db ++ [cache_entry])

/-- `session.delete` of one ORM row, identified by primary key. -/
def deleteById (db : List SearchCache) (i : Nat) : List SearchCache :=
  db.filter fun r => decide (r.id ≠ i)

/-- `SearchCacheService.cleanup_expired_cache` (search_cache.py lines
159-180): select all rows with `expires_at ≤ now`, delete each, and return
how many were selected. -/
def cleanup_expired_cache (db : List SearchCache) (now : Int) : Nat × List SearchCache :=
  let expired_entries := db.filter fun r => decide (r.expires_at ≤ now)
  (expired_entries.length, expired_entries.foldl (fun acc e => deleteById acc e.id) db)

/-- C5: cache round-trip.  Storing a result for `(fingerprint, page = 1,
per_page = 25)` and looking it up immediately with the same query, filters,
page and page size returns the identical payload; the stored row starts with
`hit_count = 0`, and the lookup leaves it with `hit_count = 1` and
`last_accessed_at = now` before returning. -/
theorem claim_C5 (q : Str) (f : Option J) (results : J) (art : Option Int)
    (now : Int) (newId : Nat) :
    (save_to_cache [] q f results 1 25 art none now newId).1.hit_count = 0 ∧
    (get_cached_results (save_to_cache [] q f results 1 25 art none now newId).2
        q f 1 25 now).1 = some results ∧
    (get_cached_results (save_to_cache [] q f results 1 25 art none now newId).2
        q f 1 25 now).2 =
      [{ (save_to_cache [] q f results 1 25 art none now newId).1 with
          hit_count := 1, last_accessed_at := some now }] := by
  set r := (save_to_cache [] q f results 1 25 art none now newId).1 with hr
  have hdb : (save_to_cache [] q f results 1 25 art none now newId).2 = [r] := rfl
  have hhash : r.query_hash = generate_cache_key q f := rfl
  have hpage : r.page = 1 := rfl
  have hpp : r.per_page = 25 := rfl
  have hexp : r.expires_at = now + 24 * 3600 := rfl
  have hhit : r.hit_count = 0 := rfl
  have hres : r.results_json = results := rfl
  have hm : rowMatches (generate_cache_key q f) 1 25 now r = true := by
    have hlt : now < now + 24 * 3600 := by omega
    simp [rowMatches, hhash, hpage, hpp, hexp, hlt]
  have hget : get_cached_results (save_to_cache [] q f results 1 25 art none now newId).2
      q f 1 25 now = (some r.results_json, bumpHit [r] r.id now) := by
    rw [hdb]
    simp only [get_cached_results, List.find?, hm]
  refine ⟨?_, ?_, ?_⟩
  · exact hhit
  · rw [hget, hres]
  · rw [hget]
    simp [bumpHit, hhit]

/-- C4: the lookup returns an entry only when fingerprint, page and page
size all match and the entry is live (`expires_at > now`), and otherwise
returns `None`; an entry stored with a negative TTL is already expired at
creation and is never returned by any later lookup; and a result stored for
page 1 does not satisfy a lookup for page 2. -/
theorem claim_C4 :
    (∀ (db : List SearchCache) (q : Str) (f : Option J) (p pp now : Int)
        (payload : J) (db2 : List SearchCache),
      get_cached_results db q f p pp now = (some payload, db2) →
      ∃ r, r ∈ db ∧ r.query_hash = generate_cache_key q f ∧ r.page = p ∧
        r.per_page = pp ∧ now < r.expires_at ∧ payload = r.results_json) ∧
    (∀ (db : List SearchCache) (q : Str) (f : Option J) (p pp now : Int),
      (∀ r ∈ db, ¬(r.query_hash = generate_cache_key q f ∧ r.page = p ∧
        r.per_page = pp ∧ now < r.expires_at)) →
      get_cached_results db q f p pp now = (none, db)) ∧
    (∀ (q : Str) (f : Option J) (results : J) (art : Option Int) (t : Int)
        (now : Int) (newId : Nat) (now' p pp : Int), t < 0 → now ≤ now' →
      rowMatches (generate_cache_key q f) p pp now'
        (save_to_cache [] q f results 1 25 art (some t) now newId).1 = false ∧
      (get_cached_results (save_to_cache [] q f results 1 25 art (some t) now newId).2
        q f p pp now').1 = none) ∧
    (∀ (q : Str) (f : Option J) (results : J) (art : Option Int)
        (ttl : Option Int) (now : Int) (newId : Nat) (now' : Int),
      (get_cached_results (save_to_cache [] q f results 1 25 art ttl now newId).2
        q f 2 25 now').1 = none) := by
  refine ⟨?_, ?_, ?_, ?_⟩
  · intro db q f p pp now payload db2 h
    simp only [get_cached_results] at h
    cases hf : db.find? (rowMatches (generate_cache_key q f) p pp now) with
    | none => rw [hf] at h; simp at h
    | some r =>
      rw [hf] at h
      simp only [Prod.mk.injEq, Option.some.injEq] at h
      have hmem := List.mem_of_find?_eq_some hf
      have hp := List.find?_some hf
      simp only [rowMatches, Bool.and_eq_true, decide_eq_true_eq] at hp
      exact ⟨r, hmem, hp.1.1.1, hp.1.1.2, hp.1.2, hp.2, h.1.symm⟩
  · intro db q f p pp now h
    have hf : db.find? (rowMatches (generate_cache_key q f) p pp now) = none := by
      rw [List.find?_eq_none]
      intro r hr hm
      simp only [rowMatches, Bool.and_eq_true, decide_eq_true_eq] at hm
      exact h r hr ⟨hm.1.1.1, hm.1.1.2, hm.1.2, hm.2⟩
    simp only [get_cached_results, hf]
  · intro q f results art t now newId now' p pp ht hnow
    set r := (save_to_cache [] q f results 1 25 art (some t) now newId).1 with hr
    have hexp : r.expires_at = now + (if t = 0 then (24 : Int) else t) * 3600 := rfl
    have hlt : ¬ (now' < r.expires_at) := by
      rw [hexp, if_neg (by omega : ¬ t = 0)]
      have : t * 3600 ≤ -3600 := by omega
      omega
    have hfalse : rowMatches (generate_cache_key q f) p pp now' r = false := by
      simp [rowMatches, hlt]
    refine ⟨hfalse, ?_⟩
    have hdb : (save_to_cache [] q f results 1 25 art (some t) now newId).2 = [r] := rfl
    rw [hdb]
    simp only [get_cached_results, List.find?, hfalse]
  · intro q f results art ttl now newId now'
    set r := (save_to_cache [] q f results 1 25 art ttl now newId).1 with hr
    have hpage : r.page = 1 := rfl
    have hfalse : rowMatches (generate_cache_key q f) 2 25 now' r = false := by
      have : ¬ (r.page = 2) := by rw [hpage]; omega
      simp [rowMatches, this]
    have hdb : (save_to_cache [] q f results 1 25 art ttl now newId).2 = [r] := rfl
    rw [hdb]
    simp only [get_cached_results, List.find?, hfalse]

theorem claim_C4_witness :
    rowMatches (generate_cache_key "x".data none) 1 25 5
        (save_to_cache [] "x".data none J.null 1 25 none (some (-1)) 0 0).1 = false ∧
      (get_cached_results
        (save_to_cache [] "x".data none J.null 1 25 none (some (-1)) 0 0).2
        "x".data none 1 25 5).1 = none :=
  claim_C4.2.2.1 "x".data none J.null none (-1) 0 0 5 1 25 (by decide) (by decide)

theorem foldDel_cons (es : List SearchCache) (r : SearchCache) (db : List SearchCache)
    (h : ∀ e ∈ es, e.id ≠ r.id) :
    es.foldl (fun acc e => deleteById acc e.id) (r :: db)
      = r :: es.foldl (fun acc e => deleteById acc e.id) db := by
  induction es generalizing db with
  | nil => rfl
  | cons e es' ih =>
    rw [List.foldl_cons, List.foldl_cons]
    have h1 : deleteById (r :: db) e.id = r :: deleteById db e.id := by
      simp only [deleteById, List.filter_cons]
      rw [if_pos]
      simp only [decide_eq_true_eq]
      exact fun hc => (h e (by simp)) (hc.symm)
    rw [h1, ih (deleteById db e.id) (fun x hx => h x (by simp [hx]))]

theorem cleanup_fold_eq_filter (now : Int) :
    ∀ (db : List SearchCache), (db.map SearchCache.id).Nodup →
    (db.filter fun r => decide (r.expires_at ≤ now)).foldl
        (fun acc e => deleteById acc e.id) db
      = db.filter fun r => decide (now < r.expires_at) := by
  intro db
  induction db with
  | nil => intro _; rfl
  | cons r rs ih =>
    intro hn
    rw [List.map_cons, List.nodup_cons] at hn
    by_cases hc : r.expires_at ≤ now
    · rw [List.filter_cons_of_pos (by simpa using hc),
        List.filter_cons_of_neg (by simpa using hc), List.foldl_cons]
      have h1 : deleteById (r :: rs) r.id = rs := by
        simp only [deleteById, List.filter_cons]
        rw [if_neg (by simp)]
        apply List.filter_eq_self.mpr
        intro x hx
        simp only [decide_eq_true_eq]
        intro he
        exact hn.1 (by rw [← he]; exact List.mem_map_of_mem _ hx)
      rw [h1, ih hn.2]
    · rw [List.filter_cons_of_neg (by simpa using hc),
        List.filter_cons_of_pos (by simpa [Int.not_le] using hc)]
      rw [foldDel_cons]
      · rw [ih hn.2]
      · intro e he
        have he2 := List.of_mem_filter he
        intro hid
        exact hn.1 (by rw [← hid]; exact List.mem_map_of_mem _ (List.mem_of_mem_filter he))

theorem filter_le_lt_length (now : Int) (l : List SearchCache) :
    (l.filter fun r => decide (r.expires_at ≤ now)).length +
      (l.filter fun r => decide (now < r.expires_at)).length = l.length := by
  induction l with
  | nil => rfl
  | cons a t ih =>
    by_cases h : a.expires_at ≤ now
    · rw [List.filter_cons_of_pos (by simpa using h),
        List.filter_cons_of_neg (by simpa using h)]
      simp only [List.length_cons]
      omega
    · rw [List.filter_cons_of_neg (by simpa using h),
        List.filter_cons_of_pos (by simpa [Int.not_le] using h)]
      simp only [List.length_cons]
      omega

theorem cleanup_of_no_expired (l : List SearchCache) (now : Int)
    (h : (l.filter fun r => decide (r.expires_at ≤ now)) = []) :
    cleanup_expired_cache l now = (0, l) := by
  simp only [cleanup_expired_cache, h, List.length_nil, List.foldl_nil]

/-- C6: `cleanup_expired_cache` at time `now` deletes exactly the entries
with `expires_at ≤ now` (the surviving table is the live entries, in
order), returns the number removed, keeps every live entry queryable, and
is idempotent.  The hypothesis is the primary-key uniqueness the database
guarantees. -/
theorem claim_C6 (db : List SearchCache) (now : Int)
    (hn : (db.map SearchCache.id).Nodup) :
    (cleanup_expired_cache db now).2 = db.filter (fun r => decide (now < r.expires_at)) ∧
    (cleanup_expired_cache db now).1 + (cleanup_expired_cache db now).2.length = db.length ∧
    (∀ r ∈ db, now < r.expires_at → r ∈ (cleanup_expired_cache db now).2) ∧
    (∀ r ∈ db, r.expires_at ≤ now → r ∉ (cleanup_expired_cache db now).2) ∧
    cleanup_expired_cache (cleanup_expired_cache db now).2 now =
      (0, (cleanup_expired_cache db now).2) := by
  have hdb2 : (cleanup_expired_cache db now).2
      = db.filter (fun r => decide (now < r.expires_at)) := by
    simp only [cleanup_expired_cache]
    exact cleanup_fold_eq_filter now db hn
  have hcount : (cleanup_expired_cache db now).1
      = (db.filter fun r => decide (r.expires_at ≤ now)).length := rfl
  refine ⟨hdb2, ?_, ?_, ?_, ?_⟩
  · rw [hdb2, hcount]
    exact filter_le_lt_length now db
  · intro r hr hl
    rw [hdb2]
    exact List.mem_filter.mpr ⟨hr, by simpa using hl⟩
  · intro r hr hl hmem
    rw [hdb2] at hmem
    have := List.of_mem_filter hmem
    simp only [decide_eq_true_eq] at this
    omega
  · have hnil : ((cleanup_expired_cache db now).2.filter
        fun r => decide (r.expires_at ≤ now)) = [] := by
      rw [hdb2, List.filter_filter]
      apply List.filter_eq_nil_iff.mpr
      intro a _
      simp only [Bool.and_eq_true, decide_eq_true_eq]
      omega
    exact cleanup_of_no_expired _ _ hnil

/-- A concrete expired row used to instantiate witness theorems. -/
def rowA : SearchCache :=
  { id := 1, query_hash := [], query_text := [], filters_json := none,
    results_json := J.null, total_results := J.int 0, page := 1, per_page := 25,
    created_at := 0, expires_at := 0, hit_count := 0, last_accessed_at := none,
    api_response_time_ms := none }

theorem claim_C6_witness :
    (cleanup_expired_cache [rowA] 5).2 =
        [rowA].filter (fun r => decide ((5 : Int) < r.expires_at)) ∧
    (cleanup_expired_cache [rowA] 5).1 + (cleanup_expired_cache [rowA] 5).2.length =
        [rowA].length ∧
    (∀ r ∈ [rowA], (5 : Int) < r.expires_at → r ∈ (cleanup_expired_cache [rowA] 5).2) ∧
    (∀ r ∈ [rowA], r.expires_at ≤ (5 : Int) → r ∉ (cleanup_expired_cache [rowA] 5).2) ∧
    cleanup_expired_cache (cleanup_expired_cache [rowA] 5).2 5 =
      (0, (cleanup_expired_cache [rowA] 5).2) :=
  claim_C6 [rowA] 5 (by decide)

/-! ## `ai_query.py`: dictionaries, validation, fallback, retries -/

/-- Python `d.get(k)` on an insertion-ordered dict. -/
def dget (kvs : List (Str × J)) (k : Str) : Option J :=
  (kvs.find? fun p => decide (p.1 = k)).map Prod.snd

/-- Python `d[k] = v`: replace the value at an existing key in place,
otherwise append the new key at the end. -/
def dset (kvs : List (Str × J)) (k : Str) (v : J) : List (Str × J) :=
  if (dget kvs k).isSome then
    kvs.map fun p => if p.1 = k then (k, v) else p
  else kvs ++ [(k, v)]

/-- Python `d.pop(k, None)` / `del d[k]`. -/
def ddel (kvs : List (Str × J)) (k : Str) : List (Str × J) :=
  kvs.filter fun p => decide (p.1 ≠ k)

/-- Python `d.setdefault(k, v)`. -/
def dsetdefault (kvs : List (Str × J)) (k : Str) (v : J) : List (Str × J) :=
  if (dget kvs k).isSome then kvs else kvs ++ [(k, v)]

mutual

/-- Python `repr` of a JSON-like value (`str(list)`/`str(dict)` use `repr`
elementwise; `repr` of a string is modelled without its internal escaping,
which none of the claims exercise). -/
def pyRepr : J → Str
  | .null => "None".data
  | .bool true => "True".data
  | .bool false => "False".data
  | .int n => intStr n
  | .str s => Char.ofNat 39 :: (s ++ [Char.ofNat 39])
  | .arr xs => '[' :: (pyReprItems xs ++ [']'])
  | .obj kvs => Char.ofNat 123 :: (pyReprPairs kvs ++ [Char.ofNat 125])

def pyReprItems : List J → Str
  | [] => []
  | [x] => pyRepr x
  | x :: y :: xs => pyRepr x ++ ',' :: ' ' :: pyReprItems (y :: xs)

def pyReprPairs : List (Str × J) → Str
  | [] => []
  | [(k, v)] => Char.ofNat 39 :: (k ++ Char.ofNat 39 :: ':' :: ' ' :: pyRepr v)
  | (k, v) :: q :: ps =>
    Char.ofNat 39 :: (k ++ Char.ofNat 39 :: ':' :: ' ' ::
      (pyRepr v ++ ',' :: ' ' :: pyReprPairs (q :: ps)))

end

/-- Python `str(x)` (top-level strings print without quotes). -/
def pyStr : J → Str
  | .str s => s
  | v => pyRepr v

/-- Decimal digits to a value, or `none` for a non-digit-run. -/
def digitsValOpt (ds : Str) : Option Nat :=
  if !ds.isEmpty && ds.all Char.isDigit then some (digitsVal ds) else none

/-- Python `int(s)` on a string: optional surrounding whitespace, optional
sign, decimal digits; anything else raises (`none`). -/
def parseIntStr (s : Str) : Option Int :=
  match pyStrip s with
  | '-' :: ds => (digitsValOpt ds).map fun n => -(n : Int)
  | '+' :: ds => (digitsValOpt ds).map fun n => (n : Int)
  | ds => (digitsValOpt ds).map fun n => (n : Int)

/-- Python `int(x)` on a JSON value: ints pass through, bools coerce,
numeric strings parse, everything else raises a `ValueError`/`TypeError`
(`none`). -/
def pyIntOpt : J → Option Int
  | .int n => some n
  | .bool b => some (if b then 1 else 0)
  | .str s => parseIntStr s
  | _ => none

/-- The whitelist `VALID_PARAMS` of `_validate_translation`. -/
def VALID_PARAMS : List Str :=
  ["search".data, "filter".data, "sort".data, "per_page".data, "page".data,
   "select".data, "cursor".data, "group_by".data]

/-- `OpenAlexAPIRequest` (ai_query.py lines 18-23): the translated request
container.  `url` is whatever JSON value ended up there; `params` is the
parameter dict. -/
structure OpenAlexAPIRequest where
  url : J
  params : List (Str × J)

def isNull : J → Bool
  | .null => true
  | _ => false

/-- Flattening of a dict-valued `filter`: skip `None` values and the
unsupported `concepts.display_name` field, print the rest as
`key:str(value)` clauses. -/
def flattenFilter (kvs : List (Str × J)) : List Str :=
  kvs.filterMap fun p =>
    if isNull p.2 then none
    else if p.1 = "concepts.display_name".data then none
    else some (p.1 ++ ':' :: pyStr p.2)

/-- Split on a separator character (Python `s.split(",")`). -/
def splitOnCh (c : Char) : Str → List Str
  | [] => [[]]
  | d :: rest =>
    match splitOnCh c rest with
    | [] => [[d]]
    | h :: t => if d = c then [] :: h :: t else (d :: h) :: t

/-- Python `s.startswith(pre)`. -/
def strStartsWith (s pre : Str) : Bool := pre.isPrefixOf s

/-- Python `sep.join(parts)`. -/
def joinWith (sep : Str) : List Str → Str
  | [] => []
  | [x] => x
  | x :: y :: xs => x ++ sep ++ joinWith sep (y :: xs)

/-- Truthiness of `d.get(k)`. -/
def jTruthyOpt : Option J → Bool
  | none => false
  | some v => !jFalsy v

/-- The `filter` normalisation block of `_validate_translation` (ai_query.py
lines 146-166): a dict-valued `filter` is flattened to `key:value` clauses
(skipping `None` values and `concepts.display_name`), a string-valued one is
split on commas, stripped, and cleaned of `concepts.display_name:` and empty
segments; an empty result becomes `None`; any other filter value is left
untouched. -/
def applyFilterNorm (params1 : List (Str × J)) : List (Str × J) :=
  match dget params1 "filter".data with
  | some (.obj kvs) =>
    let parts := flattenFilter kvs
    dset params1 "filter".data
      (if parts.isEmpty then .null else .str (joinWith ",".data parts))
  | some (.str s) =>
    let pieces := ((splitOnCh ',' s).map pyStrip).filter fun piece =>
      !(strStartsWith piece "concepts.display_name:".data) && !piece.isEmpty
    dset params1 "filter".data
      (if pieces.isEmpty then .null else .str (joinWith ",".data pieces))
  | _ => params1

/-- The `if not params.get("filter"): params.pop("filter", None)` block
(ai_query.py lines 168-170). -/
def dropFalsyFilter (params2 : List (Str × J)) : List (Str × J) :=
  if jTruthyOpt (dget params2 "filter".data) then params2
  else ddel params2 "filter".data

/-- The `per_page` clamping block (ai_query.py lines 172-178): clamp an
`int(...)`-convertible value into `[1, 200]`, defaulting to 10 when the
conversion raises. -/
def clampPerPage (params3 : List (Str × J)) : List (Str × J) :=
  match dget params3 "per_page".data with
  | none => params3
  | some v =>
    match pyIntOpt v with
    | some n => dset params3 "per_page".data (.int (min (max 1 n) 200))
    | none => dset params3 "per_page".data (.int 10)

/-- `_validate_translation` (ai_query.py lines 129-180): default the base
URL, require `params` to be a dict, drop non-whitelisted keys, then apply
the filter normalisation, the falsy-filter removal, and the `per_page`
clamp in source order. -/
def _validate_translation (translation : List (Str × J)) : Except Str OpenAlexAPIRequest :=
  let base_url : J := match dget translation "base_url".data with
    | none => .str "https://api.openalex.org/works".data
    | some v => if jFalsy v then .str "https://api.openalex.org/works".data else v
  match dget translation "params".data with
  | some (.obj params0) =>
    .ok ⟨base_url,
      clampPerPage (dropFalsyFilter (applyFilterNorm
        (params0.filter fun p => decide (p.1 ∈ VALID_PARAMS))))⟩
  | _ => .error "Translation missing params object".data

/-- `_extract_json_text` (ai_query.py lines 183-200): strip the text, and
when it begins with a Markdown fence drop the opening fence line, a closing
fence line, and an optional `json` language-hint line.  (`splitlines` is
modelled as splitting on a newline character.) -/
def _extract_json_text (raw : Str) : Str :=
  let stripped := pyStrip raw
  if !(strStartsWith stripped "```".data) then stripped
  else
    let lines0 := splitOnCh '\n' stripped
    let lines1 := match lines0 with
      | l :: ls => if strStartsWith l "```".data then ls else l :: ls
      | [] => []
    let lines2 := match lines1.getLast? with
      | some last => if strStartsWith last "```".data then lines1.dropLast else lines1
      | none => lines1
    let lines3 := match lines2 with
      | l :: ls => if strStartsWith (pyLower l) "json".data then ls else l :: ls
      | [] => []
    pyStrip (joinWith ['\n'] lines3)

/-- `\w` of the year regex. -/
def isWordChar (c : Char) : Bool := c.isAlphanum || c = '_'

def boundaryOk (prev : Option Char) : Bool :=
  match prev with
  | none => true
  | some p => !isWordChar p

/-- Left-to-right non-overlapping scan of `re.findall(r'\b(19|20)\d{2}\b', s)`.
As in Python, `findall` with one capture group returns the text of the
GROUP `(19|20)`, not the whole four-digit match: on a match only the first
two characters are collected. -/
def scanYears : Option Char → Str → List Str
  | prev, c0 :: c1 :: c2 :: c3 :: rest =>
    if boundaryOk prev && ((c0 = '1' && c1 = '9') || (c0 = '2' && c1 = '0'))
        && c2.isDigit && c3.isDigit
        && (match rest with | [] => true | c4 :: _ => !isWordChar c4)
    then [c0, c1] :: scanYears (some c3) rest
    else scanYears (some c0) (c1 :: c2 :: c3 :: rest)
  | _, _ => []

/-- `re.findall(r'\b(19|20)\d{2}\b', user_query)`. -/
def findYearGroups (s : Str) : List Str := scanYears none s

/-- Python `max` on a non-empty list of strings (first maximum wins). -/
def maxStrOpt : List Str → Option Str
  | [] => none
  | x :: xs => some (xs.foldl (fun acc y => if strLt acc y then y else acc) x)

/-- Python `needle in hay` for strings: contiguous substring test. -/
def isSubstr (needle : Str) : Str → Bool
  | [] => needle.isEmpty
  | c :: t => needle.isPrefixOf (c :: t) || isSubstr needle t

def containsAny (s : Str) (words : List Str) : Bool :=
  words.any fun w => isSubstr w s

def SELECT_DEFAULT : Str :=
  "id,title,display_name,publication_year,cited_by_count,primary_location,open_access,doi".data

/-- `_create_fallback_request` (ai_query.py lines 203-240): the heuristic
builder used when AI translation fails.  Collects the year-regex groups and
keeps the maximum as a `publication_year` filter, adds open-access and
citation filters on keyword hits, and always sets `search`, `select`,
`per_page`, optional `filter`, and `sort`. -/
def _create_fallback_request (user_query : Str) : OpenAlexAPIRequest :=
  let years := findYearGroups user_query
  let filters1 : List Str := match maxStrOpt years with
    | some latest_year => ["publication_year:".data ++ latest_year]
    | none => []
  let ql := pyLower user_query
  let filters2 := filters1 ++
    (if containsAny ql ["open access".data, "oa".data, "free".data]
     then ["is_oa:true".data] else [])
  let filters3 := filters2 ++
    (if containsAny ql ["highly cited".data, "popular".data, "influential".data]
     then ["cited_by_count:>50".data] else [])
  let params0 : List (Str × J) :=
    [("search".data, .str user_query),
     ("select".data, .str SELECT_DEFAULT),
     ("per_page".data, .int 10)]
  let params1 :=
    if filters3.isEmpty then params0
    else dset params0 "filter".data (.str (joinWith ",".data filters3))
  let params2 := dset params1 "sort".data (.str "cited_by_count:desc".data)
  ⟨.str "https://api.openalex.org/works".data, params2⟩

/-- Outcome of one Gemini HTTP attempt, as distinguished by
`_call_gemini`: a usable candidate text, an HTTP error status, a 200
response whose shape misses `candidates[0].content.parts[0].text`, a
network-level exception, or any other exception. -/
inductive AIOutcome where
  | success (text : Str)
  | httpFailure (status : Nat) (body : Str)
  | badFormat
  | netError (msg : Str)
  | otherError (msg : Str)

def attemptFailed : AIOutcome → Bool
  | .success _ => false
  | _ => true

def failMessage : AIOutcome → Str
  | .success _ => []
  | .httpFailure status body => "AI API error: ".data ++ natStr status ++ ' ' :: body.take 200
  | .badFormat => "Unexpected AI response format".data
  | .netError msg => "Network error calling AI API: ".data ++ msg
  | .otherError msg => "Unexpected error calling AI API: ".data ++ msg

/-- The retry recursion of `_call_gemini` (ai_query.py lines 56-119): try
attempt `retryCount`; on any failure retry while `retryCount < maxRetries`,
else raise `QueryTranslationError` (the `.error` case).  The fuel is a
structural bound; `_call_gemini` passes `maxRetries + 1`, enough for every
attempt. -/
def callGeminiAux (outcomes : Nat → AIOutcome) (maxRetries : Nat) :
    Nat → Nat → Except Str Str
  | 0, _ => .error "retry fuel exhausted".data
  | fuel + 1, retryCount =>
    match outcomes retryCount with
    | .success t => .ok t
    | f =>
      if retryCount < maxRetries then callGeminiAux outcomes maxRetries fuel (retryCount + 1)
      else .error (failMessage f)

/-- `_call_gemini`: raises when no API keys are configured (`_next_api_key`,
outside the `try`), otherwise runs the retry loop with
`max_retries = min(3, len(keys))`. -/
def _call_gemini (numKeys : Nat) (outcomes : Nat → AIOutcome) : Except Str Str :=
  if numKeys = 0 then .error "AI_API_KEYS environment variable is not configured".data
  else callGeminiAux outcomes (min 3 numKeys) (min 3 numKeys + 1) 0

/-- `_call_llm` (ai_query.py lines 122-126). -/
def _call_llm (provider : Str) (numKeys : Nat) (outcomes : Nat → AIOutcome) :
    Except Str Str :=
  if pyLower provider = "gemini".data then _call_gemini numKeys outcomes
  else .error ("Unsupported AI provider: ".data ++ provider)

/-- `query_to_openalex` (ai_query.py lines 243-281).  `jsonLoads` models the
standard library `json.loads` (an external collaborator); a parse failure or
a non-dict parse lands in the fallback, as do `QueryTranslationError` and
every other exception of the AI path. -/
def query_to_openalex (jsonLoads : Str → Option J) (user_query provider : Str)
    (numKeys : Nat) (outcomes : Nat → AIOutcome) : OpenAlexAPIRequest :=
  match _call_llm provider numKeys outcomes with
  | .error _ => _create_fallback_request user_query
  | .ok response_content =>
    match jsonLoads (_extract_json_text response_content) with
    | none => _create_fallback_request user_query
    | some (.obj tkvs) =>
      match _validate_translation tkvs with
      | .error _ => _create_fallback_request user_query
      | .ok request =>
        { request with
            params := dsetdefault
              (dsetdefault request.params "search".data (.str user_query))
              "select".data (.str SELECT_DEFAULT) }
    | some _ => _create_fallback_request user_query

theorem dget_mapReplace_ne (kvs : List (Str × J)) (k : Str) (v : J) (k' : Str)
    (h : k ≠ k') :
    dget (kvs.map fun p => if p.1 = k then (k, v) else p) k' = dget kvs k' := by
  induction kvs with
  | nil => rfl
  | cons p ps ih =>
    simp only [List.map_cons, dget] at *
    by_cases hp : p.1 = k
    · rw [if_pos hp,
        List.find?_cons_of_neg _ (by simp [h]),
        List.find?_cons_of_neg _ (by simp [hp, h])]
      exact ih
    · rw [if_neg hp]
      by_cases hk' : p.1 = k'
      · rw [List.find?_cons_of_pos _ (by simp [hk']),
          List.find?_cons_of_pos _ (by simp [hk'])]
      · rw [List.find?_cons_of_neg _ (by simp [hk']),
          List.find?_cons_of_neg _ (by simp [hk'])]
        exact ih

theorem dget_append_single_ne (kvs : List (Str × J)) (k : Str) (v : J) (k' : Str)
    (h : k ≠ k') :
    dget (kvs ++ [(k, v)]) k' = dget kvs k' := by
  induction kvs with
  | nil =>
    simp only [List.nil_append, dget]
    rw [List.find?_cons_of_neg _ (by simp [h])]
  | cons p ps ih =>
    simp only [List.cons_append, dget] at *
    by_cases hk' : p.1 = k'
    · rw [List.find?_cons_of_pos _ (by simp [hk']),
        List.find?_cons_of_pos _ (by simp [hk'])]
    · rw [List.find?_cons_of_neg _ (by simp [hk']),
        List.find?_cons_of_neg _ (by simp [hk'])]
      exact ih

theorem dget_dset_ne (kvs : List (Str × J)) (k : Str) (v : J) (k' : Str) (h : k ≠ k') :
    dget (dset kvs k v) k' = dget kvs k' := by
  unfold dset
  by_cases hs : (dget kvs k).isSome
  · rw [if_pos hs]
    exact dget_mapReplace_ne kvs k v k' h
  · rw [if_neg hs]
    exact dget_append_single_ne kvs k v k' h

theorem dget_mapReplace_eq :
    ∀ (kvs : List (Str × J)) (k : Str) (v : J), (dget kvs k).isSome →
      dget (kvs.map fun p => if p.1 = k then (k, v) else p) k = some v := by
  intro kvs k v
  induction kvs with
  | nil => intro hs; simp [dget] at hs
  | cons p ps ih =>
    intro hs
    simp only [List.map_cons, dget]
    by_cases hp : p.1 = k
    · rw [if_pos hp, List.find?_cons_of_pos _ (by simp)]
      rfl
    · rw [if_neg hp, List.find?_cons_of_neg _ (by simp [hp])]
      have hd : dget (p :: ps) k = dget ps k := by
        simp only [dget]
        rw [List.find?_cons_of_neg _ (by simp [hp])]
      rw [hd] at hs
      exact ih hs

theorem dget_append_single_eq :
    ∀ (kvs : List (Str × J)) (k : Str) (v : J), ¬ (dget kvs k).isSome →
      dget (kvs ++ [(k, v)]) k = some v := by
  intro kvs k v
  induction kvs with
  | nil =>
    intro _
    simp only [List.nil_append, dget]
    rw [List.find?_cons_of_pos _ (by simp)]
    rfl
  | cons p ps ih =>
    intro hs
    simp only [List.cons_append, dget]
    by_cases hp : p.1 = k
    · exfalso
      apply hs
      simp only [dget]
      rw [List.find?_cons_of_pos _ (by simp [hp])]
      rfl
    · rw [List.find?_cons_of_neg _ (by simp [hp])]
      have hd : dget (p :: ps) k = dget ps k := by
        simp only [dget]
        rw [List.find?_cons_of_neg _ (by simp [hp])]
      rw [hd] at hs
      exact ih hs

theorem dget_dset_eq (kvs : List (Str × J)) (k : Str) (v : J) :
    dget (dset kvs k v) k = some v := by
  unfold dset
  by_cases hs : (dget kvs k).isSome
  · rw [if_pos hs]
    exact dget_mapReplace_eq kvs k v hs
  · rw [if_neg hs]
    exact dget_append_single_eq kvs k v hs

theorem dget_ddel_eq (kvs : List (Str × J)) (k : Str) :
    dget (ddel kvs k) k = none := by
  simp only [dget, ddel]
  have h : List.find? (fun p => decide (p.1 = k))
      (List.filter (fun p => decide (p.1 ≠ k)) kvs) = none := by
    rw [List.find?_eq_none]
    intro p hp
    have h2 := List.of_mem_filter hp
    simp only [decide_eq_true_eq] at h2 ⊢
    exact h2
  rw [h]
  rfl

theorem dget_ddel_ne (kvs : List (Str × J)) (k k' : Str) (h : k ≠ k') :
    dget (ddel kvs k) k' = dget kvs k' := by
  induction kvs with
  | nil => rfl
  | cons p ps ih =>
    simp only [ddel, List.filter_cons, dget] at *
    by_cases hp : p.1 = k
    · rw [if_neg (by simp [hp]), List.find?_cons_of_neg _ (by simp [hp]; exact h)]
      exact ih
    · rw [if_pos (by simp [hp])]
      by_cases hk' : p.1 = k'
      · rw [List.find?_cons_of_pos _ (by simp [hk']),
          List.find?_cons_of_pos _ (by simp [hk'])]
      · rw [List.find?_cons_of_neg _ (by simp [hk']),
          List.find?_cons_of_neg _ (by simp [hk'])]
        exact ih

theorem mem_dset (kvs : List (Str × J)) (k : Str) (v : J) :
    ∀ p ∈ dset kvs k v, p = (k, v) ∨ p ∈ kvs := by
  unfold dset
  split
  · intro p hp
    rcases List.mem_map.mp hp with ⟨q, hq, he⟩
    by_cases hqk : q.1 = k
    · left; rw [← he, if_pos hqk]
    · right; rw [← he, if_neg hqk]; exact hq
  · intro p hp
    rcases List.mem_append.mp hp with h | h
    · right; exact h
    · left; simpa using h

theorem mem_ddel (kvs : List (Str × J)) (k : Str) :
    ∀ p ∈ ddel kvs k, p ∈ kvs := fun _ hp => List.mem_of_mem_filter hp

theorem callGeminiAux_error (outcomes : Nat → AIOutcome) (maxR : Nat)
    (h : ∀ i, attemptFailed (outcomes i) = true) :
    ∀ fuel rc, ∃ e, callGeminiAux outcomes maxR fuel rc = .error e := by
  intro fuel
  induction fuel with
  | zero => intro rc; exact ⟨_, rfl⟩
  | succ n ih =>
    intro rc
    have hrc := h rc
    cases ho : outcomes rc with
    | success t =>
      rw [ho] at hrc
      simp [attemptFailed] at hrc
    | httpFailure st b =>
      simp only [callGeminiAux, ho]
      by_cases hlt : rc < maxR
      · rw [if_pos hlt]; exact ih (rc + 1)
      · rw [if_neg hlt]; exact ⟨_, rfl⟩
    | badFormat =>
      simp only [callGeminiAux, ho]
      by_cases hlt : rc < maxR
      · rw [if_pos hlt]; exact ih (rc + 1)
      · rw [if_neg hlt]; exact ⟨_, rfl⟩
    | netError m =>
      simp only [callGeminiAux, ho]
      by_cases hlt : rc < maxR
      · rw [if_pos hlt]; exact ih (rc + 1)
      · rw [if_neg hlt]; exact ⟨_, rfl⟩
    | otherError m =>
      simp only [callGeminiAux, ho]
      by_cases hlt : rc < maxR
      · rw [if_pos hlt]; exact ih (rc + 1)
      · rw [if_neg hlt]; exact ⟨_, rfl⟩

theorem call_llm_error (provider : Str) (numKeys : Nat) (outcomes : Nat → AIOutcome)
    (h : ∀ i, attemptFailed (outcomes i) = true) :
    ∃ e, _call_llm provider numKeys outcomes = .error e := by
  unfold _call_llm _call_gemini
  by_cases hp : pyLower provider = "gemini".data
  · rw [if_pos hp]
    by_cases hk : numKeys = 0
    · rw [if_pos hk]; exact ⟨_, rfl⟩
    · rw [if_neg hk]
      exact callGeminiAux_error outcomes (min 3 numKeys) h (min 3 numKeys + 1) 0
  · rw [if_neg hp]; exact ⟨_, rfl⟩

theorem fallback_search (q : Str) :
    dget (_create_fallback_request q).params "search".data = some (.str q) := by
  unfold _create_fallback_request
  simp only
  rw [dget_dset_ne _ _ _ _ (by decide)]
  split_ifs <;> rfl

theorem fallback_sort (q : Str) :
    dget (_create_fallback_request q).params "sort".data =
      some (.str "cited_by_count:desc".data) := by
  unfold _create_fallback_request
  simp only
  exact dget_dset_eq _ _ _

theorem fallback_keys (q : Str) :
    ∀ p ∈ (_create_fallback_request q).params, p.1 ∈ VALID_PARAMS := by
  unfold _create_fallback_request
  simp only
  intro p hp
  rcases mem_dset _ _ _ p hp with he | hp1
  · rw [he]; decide
  · have hbase : ∀ x ∈ [("search".data, J.str q),
        ("select".data, J.str SELECT_DEFAULT), ("per_page".data, J.int 10)],
        x.1 ∈ VALID_PARAMS := by
      intro x hx
      simp only [List.mem_cons, List.not_mem_nil, or_false] at hx
      rcases hx with hx | hx | hx
      · rw [hx]
        exact (by decide : ("search".data : Str) ∈ VALID_PARAMS)
      · rw [hx]
        exact (by decide : ("select".data : Str) ∈ VALID_PARAMS)
      · rw [hx]
        exact (by decide : ("per_page".data : Str) ∈ VALID_PARAMS)
    split_ifs at hp1 <;> first
      | exact hbase p hp1
      | (cases mem_dset _ _ _ p hp1 with
         | inl he2 =>
           rw [he2]
           exact (by decide : ("filter".data : Str) ∈ VALID_PARAMS)
         | inr hp2 => exact hbase p hp2)

/-- C2: totality of the translator under total AI failure.  If every attempt
of the AI call path fails (HTTP error, malformed response shape, network
error, any other exception — and, through `_call_llm` and `_call_gemini`,
an unsupported provider or an empty key set), `query_to_openalex` returns
the heuristic fallback request: a value, never an exception.  The fallback
is well-formed — its `search` parameter is set to the raw query (hence
non-empty for every non-empty query) and every parameter key is
whitelisted. -/
theorem claim_C2 (jsonLoads : Str → Option J) (q provider : Str) (numKeys : Nat)
    (outcomes : Nat → AIOutcome)
    (h : ∀ i, attemptFailed (outcomes i) = true) :
    query_to_openalex jsonLoads q provider numKeys outcomes =
      _create_fallback_request q ∧
    dget (query_to_openalex jsonLoads q provider numKeys outcomes).params
      "search".data = some (.str q) ∧
    (∀ p ∈ (query_to_openalex jsonLoads q provider numKeys outcomes).params,
      p.1 ∈ VALID_PARAMS) ∧
    (q ≠ [] → ∃ s : Str, s ≠ [] ∧
      dget (query_to_openalex jsonLoads q provider numKeys outcomes).params
        "search".data = some (.str s)) := by
  obtain ⟨e, he⟩ := call_llm_error provider numKeys outcomes h
  have hq : query_to_openalex jsonLoads q provider numKeys outcomes =
      _create_fallback_request q := by
    simp only [query_to_openalex, he]
  refine ⟨hq, ?_, ?_, ?_⟩
  · rw [hq]; exact fallback_search q
  · rw [hq]; exact fallback_keys q
  · intro hne
    exact ⟨q, hne, by rw [hq]; exact fallback_search q⟩

theorem claim_C2_witness :
    query_to_openalex (fun _ => none) "covid research".data "gemini".data 2
        (fun _ => AIOutcome.netError "timeout".data) =
      _create_fallback_request "covid research".data ∧
    dget (query_to_openalex (fun _ => none) "covid research".data "gemini".data 2
        (fun _ => AIOutcome.netError "timeout".data)).params
      "search".data = some (.str "covid research".data) ∧
    (∀ p ∈ (query_to_openalex (fun _ => none) "covid research".data "gemini".data 2
        (fun _ => AIOutcome.netError "timeout".data)).params,
      p.1 ∈ VALID_PARAMS) ∧
    ("covid research".data ≠ [] → ∃ s : Str, s ≠ [] ∧
      dget (query_to_openalex (fun _ => none) "covid research".data "gemini".data 2
          (fun _ => AIOutcome.netError "timeout".data)).params
        "search".data = some (.str s)) :=
  claim_C2 (fun _ => none) "covid research".data "gemini".data 2
    (fun _ => AIOutcome.netError "timeout".data) (fun _ => rfl)

/-- C8: evaluation of the fallback builder on the spec's Scenario B input
`"quantum computing from 2024"`.  The builder does set `search` to the raw
query and `sort` to `cited_by_count:desc`, but the year filter comes out as
`publication_year:20`, not `publication_year:2024`: `re.findall` on the
pattern `\b(19|20)\d{2}\b`, which contains one capture group, returns the
text of the group `(19|20)` — i.e. `"20"` — rather than the full four-digit
match, and `max(years)` then picks among these two-character strings.  This
contradicts the claim's (and the code's own) intent of filtering by the
most recent four-digit year. -/
theorem claim_C8 :
    dget (_create_fallback_request "quantum computing from 2024".data).params
        "filter".data = some (J.str "publication_year:20".data) ∧
    dget (_create_fallback_request "quantum computing from 2024".data).params
        "sort".data = some (J.str "cited_by_count:desc".data) ∧
    dget (_create_fallback_request "quantum computing from 2024".data).params
        "search".data = some (J.str "quantum computing from 2024".data) ∧
    findYearGroups "quantum computing from 2024".data = ["20".data] :=
  ⟨rfl, rfl, rfl, rfl⟩

/-- An AI translation whose `params.filter` is the number `42`. -/
def transFilter42 : List (Str × J) :=
  [("params".data, J.obj [("filter".data, J.int 42), ("search".data, J.str "x".data)])]

/-- What `_validate_translation` returns on `transFilter42`: the numeric
filter passes through untouched. -/
def reqFilter42 : OpenAlexAPIRequest :=
  ⟨J.str "https://api.openalex.org/works".data,
   [("filter".data, J.int 42), ("search".data, J.str "x".data)]⟩

def isStrOpt : Option J → Bool
  | some (.str _) => true
  | _ => false

/-- The `params` object of the C7 witness translation: a whitelisted `search`,
a messy string-valued `filter`, an out-of-range `per_page`, and a
non-whitelisted key. -/
def paramsW : List (Str × J) :=
  [("search".data, J.str "x".data),
   ("filter".data, J.str " machine learning , is_oa:true ".data),
   ("per_page".data, J.int 500),
   ("bogus".data, J.int 1)]

def transW : List (Str × J) := [("params".data, J.obj paramsW)]

def reqW : OpenAlexAPIRequest :=
  ⟨J.str "https://api.openalex.org/works".data,
   [("search".data, J.str "x".data),
    ("filter".data, J.str "machine learning,is_oa:true".data),
    ("per_page".data, J.int 200)]⟩

/-- C7 counterexample, two parts.  First, for the translation
`{"params": {"filter": 42, "search": "x"}}` the validator succeeds and
leaves `filter = 42` in the validated request — the filter value is present
but is not a comma-joined string of clauses at all (`42` is truthy, and the
normalisation branches only handle dict- and str-valued filters).  Second,
even when the filter is a string, its surviving comma-segments pass through
verbatim and need not have `field:value` form: on `transW` the validator
produces the filter `"machine learning,is_oa:true"`, whose first clause
`"machine learning"` contains no colon.  Both refute the claimed invariant
that any present filter is a comma-joined string of `field:value` clauses. -/
theorem claim_C7_counterexample :
    (_validate_translation transFilter42 = .ok reqFilter42 ∧
     dget reqFilter42.params "filter".data = some (J.int 42) ∧
     isStrOpt (dget reqFilter42.params "filter".data) = false) ∧
    (_validate_translation transW = .ok reqW ∧
     dget reqW.params "filter".data =
       some (J.str "machine learning,is_oa:true".data) ∧
     splitOnCh ',' "machine learning,is_oa:true".data =
       ["machine learning".data, "is_oa:true".data] ∧
     ':' ∉ "machine learning".data) :=
  ⟨⟨rfl, rfl, rfl⟩, ⟨rfl, rfl, rfl, by decide⟩⟩

theorem dget_cons_eq (p : Str × J) (ps : List (Str × J)) (k : Str) (h : p.1 = k) :
    dget (p :: ps) k = some p.2 := by
  simp only [dget]
  rw [List.find?_cons_of_pos _ (by simp [h])]
  rfl

theorem dget_cons_ne (p : Str × J) (ps : List (Str × J)) (k : Str) (h : ¬ p.1 = k) :
    dget (p :: ps) k = dget ps k := by
  simp only [dget]
  rw [List.find?_cons_of_neg _ (by simp [h])]

theorem dget_filter_wl (kvs : List (Str × J)) (k : Str) (hk : k ∈ VALID_PARAMS) :
    dget (kvs.filter fun p => decide (p.1 ∈ VALID_PARAMS)) k = dget kvs k := by
  induction kvs with
  | nil => rfl
  | cons p ps ih =>
    by_cases hw : p.1 ∈ VALID_PARAMS
    · rw [List.filter_cons_of_pos (by simpa using hw)]
      by_cases hp : p.1 = k
      · rw [dget_cons_eq _ _ _ hp, dget_cons_eq _ _ _ hp]
      · rw [dget_cons_ne _ _ _ hp, dget_cons_ne _ _ _ hp]
        exact ih
    · rw [List.filter_cons_of_neg (by simpa using hw)]
      have hp : ¬ p.1 = k := fun he => hw (he ▸ hk)
      rw [dget_cons_ne _ _ _ hp]
      exact ih

theorem joinWith_ne_nil (sep : Str) :
    ∀ parts : List Str, parts ≠ [] → (∀ s ∈ parts, s ≠ []) →
      joinWith sep parts ≠ [] := by
  intro parts hne hall
  match parts with
  | [x] =>
    simpa [joinWith] using hall x (by simp)
  | x :: y :: xs =>
    simp only [joinWith, ne_eq, List.append_assoc, List.append_eq_nil]
    intro hc
    exact hall x (by simp) hc.1

theorem flattenFilter_parts (kvs : List (Str × J)) :
    ∀ s ∈ flattenFilter kvs, s ≠ [] := by
  intro s hs
  rcases List.mem_filterMap.mp hs with ⟨p, _, he⟩
  by_cases hn : isNull p.2 = true
  · rw [if_pos hn] at he
    exact absurd he (by simp)
  · rw [if_neg hn] at he
    by_cases hc2 : p.1 = "concepts.display_name".data
    · rw [if_pos hc2] at he
      exact absurd he (by simp)
    · rw [if_neg hc2] at he
      injection he with he2
      subst he2
      intro hc
      rw [List.append_eq_nil] at hc
      exact absurd hc.2 (by simp)

/-- Shape condition on the AI-supplied `filter` value under which the
claim's filter invariant actually holds: a mapping, a string, absent, or
falsy (falsy filters are removed). -/
def filterShapeOK : Option J → Prop
  | none => True
  | some (.obj _) => True
  | some (.str _) => True
  | some v => jFalsy v = true

theorem keys_wl_dset (l : List (Str × J)) (h : ∀ p ∈ l, p.1 ∈ VALID_PARAMS)
    (k : Str) (hk : k ∈ VALID_PARAMS) (v : J) :
    ∀ p ∈ dset l k v, p.1 ∈ VALID_PARAMS := by
  intro p hp
  rcases mem_dset _ _ _ p hp with he | hm
  · rw [he]; exact hk
  · exact h p hm

theorem keys_wl_filterWL (params0 : List (Str × J)) :
    ∀ p ∈ (params0.filter fun p => decide (p.1 ∈ VALID_PARAMS)), p.1 ∈ VALID_PARAMS := by
  intro p hp
  have := List.of_mem_filter hp
  simpa using this

theorem applyFilterNorm_keys (P1 : List (Str × J)) (h : ∀ p ∈ P1, p.1 ∈ VALID_PARAMS) :
    ∀ p ∈ applyFilterNorm P1, p.1 ∈ VALID_PARAMS := by
  unfold applyFilterNorm
  cases hdf : dget P1 "filter".data with
  | none => exact h
  | some v0 =>
    cases v0 with
    | obj kvs =>
      exact keys_wl_dset P1 h "filter".data (by decide) _
    | str s =>
      exact keys_wl_dset P1 h "filter".data (by decide) _
    | null => exact h
    | bool b => exact h
    | int n => exact h
    | arr xs => exact h

theorem dropFalsyFilter_keys (P2 : List (Str × J)) (h : ∀ p ∈ P2, p.1 ∈ VALID_PARAMS) :
    ∀ p ∈ dropFalsyFilter P2, p.1 ∈ VALID_PARAMS := by
  unfold dropFalsyFilter
  split
  · exact h
  · exact fun p hp => h p (mem_ddel _ _ p hp)

theorem clampPerPage_keys (P3 : List (Str × J)) (h : ∀ p ∈ P3, p.1 ∈ VALID_PARAMS) :
    ∀ p ∈ clampPerPage P3, p.1 ∈ VALID_PARAMS := by
  unfold clampPerPage
  cases hd : dget P3 "per_page".data with
  | none => exact h
  | some v =>
    dsimp only
    cases hi : pyIntOpt v with
    | some n =>
      dsimp only
      exact keys_wl_dset P3 h "per_page".data (by decide) _
    | none =>
      dsimp only
      exact keys_wl_dset P3 h "per_page".data (by decide) _

theorem clampPerPage_filter (P3 : List (Str × J)) :
    dget (clampPerPage P3) "filter".data = dget P3 "filter".data := by
  unfold clampPerPage
  cases hd : dget P3 "per_page".data with
  | none => rfl
  | some v =>
    dsimp only
    cases hi : pyIntOpt v with
    | some n =>
      dsimp only
      exact dget_dset_ne P3 "per_page".data _ "filter".data (by decide)
    | none =>
      dsimp only
      exact dget_dset_ne P3 "per_page".data _ "filter".data (by decide)

theorem clampPerPage_pp (P3 : List (Str × J)) :
    ∀ v, dget (clampPerPage P3) "per_page".data = some v →
      ∃ n : Int, v = .int n ∧ 1 ≤ n ∧ n ≤ 200 := by
  intro v hv
  unfold clampPerPage at hv
  revert hv
  cases hd : dget P3 "per_page".data with
  | none =>
    intro hv
    have hv2 : dget P3 "per_page".data = some v := hv
    rw [hd] at hv2
    exact absurd hv2 (by simp)
  | some w =>
    intro hv
    have hv1 : dget (match pyIntOpt w with
        | some n => dset P3 "per_page".data (J.int (min (max 1 n) 200))
        | none => dset P3 "per_page".data (J.int 10)) "per_page".data = some v := hv
    revert hv1
    cases hi : pyIntOpt w with
    | some n =>
      intro hv1
      have hv2 : dget (dset P3 "per_page".data (.int (min (max 1 n) 200)))
          "per_page".data = some v := hv1
      rw [dget_dset_eq] at hv2
      injection hv2 with hv3
      exact ⟨min (max 1 n) 200, hv3.symm, by omega, by omega⟩
    | none =>
      intro hv1
      have hv2 : dget (dset P3 "per_page".data (.int 10))
          "per_page".data = some v := hv1
      rw [dget_dset_eq] at hv2
      injection hv2 with hv3
      exact ⟨10, hv3.symm, by omega, by omega⟩

theorem dropFalsyFilter_spec (P2 : List (Str × J)) :
    ∀ v, dget (dropFalsyFilter P2) "filter".data = some v →
      dget P2 "filter".data = some v ∧ jFalsy v = false := by
  unfold dropFalsyFilter
  by_cases hc : jTruthyOpt (dget P2 "filter".data) = true
  · rw [if_pos hc]
    intro v hv
    refine ⟨hv, ?_⟩
    rw [hv] at hc
    simpa [jTruthyOpt] using hc
  · rw [if_neg hc]
    intro v hv
    rw [dget_ddel_eq] at hv
    exact absurd hv (by simp)

theorem applyFilterNorm_spec (P1 : List (Str × J))
    (hshape : filterShapeOK (dget P1 "filter".data)) :
    ∀ v, dget (applyFilterNorm P1) "filter".data = some v → jFalsy v = false →
      ∃ parts : List Str, parts ≠ [] ∧ (∀ s ∈ parts, s ≠ []) ∧
        v = .str (joinWith ",".data parts) := by
  intro v hv hfal
  unfold applyFilterNorm at hv
  revert hv
  cases hdf : dget P1 "filter".data with
  | none =>
    intro hv
    have hv2 : dget P1 "filter".data = some v := hv
    rw [hdf] at hv2
    exact absurd hv2 (by simp)
  | some v0 =>
    rw [hdf] at hshape
    cases v0 with
    | obj kvs =>
      intro hv
      have hv2 : dget (dset P1 "filter".data
          (if (flattenFilter kvs).isEmpty then J.null
           else J.str (joinWith ",".data (flattenFilter kvs)))) "filter".data
          = some v := hv
      rw [dget_dset_eq] at hv2
      injection hv2 with hv3
      by_cases hne : (flattenFilter kvs).isEmpty
      · rw [if_pos hne] at hv3
        rw [← hv3] at hfal
        simp [jFalsy] at hfal
      · rw [if_neg hne] at hv3
        exact ⟨flattenFilter kvs, by simpa using hne, flattenFilter_parts kvs, hv3.symm⟩
    | str s =>
      intro hv
      have hv2 : dget (dset P1 "filter".data
          (if (((splitOnCh ',' s).map pyStrip).filter fun piece =>
              !(strStartsWith piece "concepts.display_name:".data) && !piece.isEmpty).isEmpty
           then J.null
           else J.str (joinWith ",".data (((splitOnCh ',' s).map pyStrip).filter fun piece =>
              !(strStartsWith piece "concepts.display_name:".data) && !piece.isEmpty))))
          "filter".data = some v := hv
      rw [dget_dset_eq] at hv2
      injection hv2 with hv3
      by_cases hne : (((splitOnCh ',' s).map pyStrip).filter fun piece =>
          !(strStartsWith piece "concepts.display_name:".data) && !piece.isEmpty).isEmpty
      · rw [if_pos hne] at hv3
        rw [← hv3] at hfal
        simp [jFalsy] at hfal
      · rw [if_neg hne] at hv3
        refine ⟨_, by simpa using hne, ?_, hv3.symm⟩
        intro x hx
        have h2 := List.of_mem_filter hx
        simp only [Bool.and_eq_true, Bool.not_eq_true'] at h2
        intro hxe
        rw [hxe] at h2
        simp at h2
    | null =>
      intro hv
      have hv2 : dget P1 "filter".data = some v := hv
      rw [hdf] at hv2
      injection hv2 with hv3
      rw [← hv3] at hfal
      exact absurd hfal (by decide)
    | bool b =>
      intro hv
      have hv2 : dget P1 "filter".data = some v := hv
      rw [hdf] at hv2
      injection hv2 with hv3
      have hs2 : jFalsy (J.bool b) = true := hshape
      rw [← hv3] at hfal
      rw [hs2] at hfal
      exact absurd hfal (by simp)
    | int n =>
      intro hv
      have hv2 : dget P1 "filter".data = some v := hv
      rw [hdf] at hv2
      injection hv2 with hv3
      have hs2 : jFalsy (J.int n) = true := hshape
      rw [← hv3] at hfal
      rw [hs2] at hfal
      exact absurd hfal (by simp)
    | arr xs =>
      intro hv
      have hv2 : dget P1 "filter".data = some v := hv
      rw [hdf] at hv2
      injection hv2 with hv3
      have hs2 : jFalsy (J.arr xs) = true := hshape
      rw [← hv3] at hfal
      rw [hs2] at hfal
      exact absurd hfal (by simp)

/-- C7 (amended): for every parsed AI translation whose `params` is a mapping,
if the validator succeeds then every key of the validated parameter set belongs
to the whitelist `VALID_PARAMS` (non-whitelisted keys are silently dropped),
and any `per_page` value present is an integer clamped into `[1, 200]`,
both unconditionally; and provided the incoming `filter` value (if any) is a
mapping, a string, or falsy — the shapes the normalisation block handles —
any `filter` value present in the validated request is a non-empty
comma-joined string of non-empty clauses.  The clauses are not guaranteed to
have `field:value` form.  (The original claim asserted the `field:value`
filter invariant for every translation; `claim_C7_counterexample` shows a
truthy filter of another JSON type, such as the number `42`, passes through
unchanged, and that a string filter's surviving comma-segments pass through
verbatim, so a clause such as `machine learning` has no colon.) -/
theorem claim_C7 (translation : List (Str × J)) (params0 : List (Str × J))
    (req : OpenAlexAPIRequest)
    (hp : dget translation "params".data = some (.obj params0))
    (hshape : filterShapeOK (dget params0 "filter".data))
    (hok : _validate_translation translation = .ok req) :
    (∀ p ∈ req.params, p.1 ∈ VALID_PARAMS) ∧
    (∀ v, dget req.params "filter".data = some v →
      ∃ parts : List Str, parts ≠ [] ∧ (∀ s ∈ parts, s ≠ []) ∧
        v = .str (joinWith ",".data parts)) ∧
    (∀ v, dget req.params "per_page".data = some v →
      ∃ n : Int, v = .int n ∧ 1 ≤ n ∧ n ≤ 200) := by
  have hkeys0 := keys_wl_filterWL params0
  have hkeys1 := applyFilterNorm_keys _ hkeys0
  have hkeys2 := dropFalsyFilter_keys _ hkeys1
  have hkeys3 := clampPerPage_keys _ hkeys2
  have hshape1 : filterShapeOK
      (dget (params0.filter fun p => decide (p.1 ∈ VALID_PARAMS)) "filter".data) := by
    rw [dget_filter_wl params0 "filter".data (by decide)]
    exact hshape
  have hreq : req.params = clampPerPage (dropFalsyFilter (applyFilterNorm
      (params0.filter fun p => decide (p.1 ∈ VALID_PARAMS)))) := by
    have hval : _validate_translation translation = Except.ok
        (⟨match dget translation "base_url".data with
          | none => J.str "https://api.openalex.org/works".data
          | some v => if jFalsy v then J.str "https://api.openalex.org/works".data else v,
          clampPerPage (dropFalsyFilter (applyFilterNorm
            (params0.filter fun p => decide (p.1 ∈ VALID_PARAMS))))⟩ :
          OpenAlexAPIRequest) := by
      unfold _validate_translation
      rw [hp]
    rw [hok] at hval
    injection hval with hval2
    rw [hval2]
  refine ⟨?_, ?_, ?_⟩
  · rw [hreq]
    exact hkeys3
  · intro v hv
    rw [hreq, clampPerPage_filter] at hv
    obtain ⟨hv2, hfal⟩ := dropFalsyFilter_spec _ v hv
    exact applyFilterNorm_spec _ hshape1 v hv2 hfal
  · intro v hv
    rw [hreq] at hv
    exact clampPerPage_pp _ v hv

/-- Witness for C7 at a concrete translation: the non-whitelisted key is
dropped, the filter string is stripped and re-joined, and `per_page = 500`
is clamped to `200`. -/
theorem claim_C7_witness :
    (∀ p ∈ reqW.params, p.1 ∈ VALID_PARAMS) ∧
    (∀ v, dget reqW.params "filter".data = some v →
      ∃ parts : List Str, parts ≠ [] ∧ (∀ s ∈ parts, s ≠ []) ∧
        v = .str (joinWith ",".data parts)) ∧
    (∀ v, dget reqW.params "per_page".data = some v →
      ∃ n : Int, v = .int n ∧ 1 ≤ n ∧ n ≤ 200) :=
  claim_C7 transW paramsW reqW rfl trivial rfl

/-- Outcome of one `client.get` call inside `_perform_request`
(openalex_client.py lines 59-61): a timeout (`httpx.TimeoutException`), a
connection-level failure (`httpx.HTTPError`), or an HTTP response carrying a
status code, an optional parsed `Retry-After` header (modelled by its numeric
value in seconds), the body text, and the body parsed as JSON when it is
valid JSON. -/
inductive HttpResult where
  | timeoutExc : HttpResult
  | httpErrorExc : Str → HttpResult
  | resp : Int → Option Int → Str → Option J → HttpResult

/-- The `OpenAlexError` variants raised by `_perform_request`
(openalex_client.py lines 62-94), one constructor per `raise` site. -/
inductive OAErr where
  | timedOut : OAErr
  | reqFailed : Str → OAErr
  | rateLimited : OAErr
  | badStatus : Int → Str → OAErr
  | invalidJson : OAErr
  | exhausted : OAErr

/-- The retry loop of `_perform_request` (openalex_client.py lines 57-94),
driven by a script of per-attempt HTTP outcomes.  The first argument is the
number of attempts remaining (`rem + 1` remaining means the current attempt
is the last one exactly when `rem = 0`, matching `attempt == max_retries`);
the running `backoff` doubles after every retried failure; the returned list
records the `time.sleep` durations in order.  The `exhausted` outcomes
correspond to the dead `raise` after the loop. -/
def performAux : Nat → List HttpResult → Int → List Int →
    Except OAErr J × List Int
  | 0, _, _, sleeps => (.error .exhausted, sleeps)
  | _ + 1, [], _, sleeps => (.error .exhausted, sleeps)
  | rem + 1, .timeoutExc :: rest, backoff, sleeps =>
    if rem = 0 then (.error .timedOut, sleeps)
    else performAux rem rest (backoff * 2) (sleeps ++ [backoff])
  | rem + 1, .httpErrorExc msg :: rest, backoff, sleeps =>
    if rem = 0 then (.error (.reqFailed msg), sleeps)
    else performAux rem rest (backoff * 2) (sleeps ++ [backoff])
  | rem + 1, .resp status retryAfter body jsonBody :: rest, backoff, sleeps =>
    if status = 429 then
      if rem = 0 then (.error .rateLimited, sleeps)
      else performAux rem rest (backoff * 2) (sleeps ++ [retryAfter.getD backoff])
    else if 400 ≤ status then (.error (.badStatus status (body.take 200)), sleeps)
    else match jsonBody with
      | some j => (.ok j, sleeps)
      | none => (.error .invalidJson, sleeps)

/-- `OpenAlexClient._perform_request` (openalex_client.py lines 54-94):
run the retry loop with `max_retries` attempts starting from
`backoff_initial`; the dataclass defaults are `max_retries = 3` and
`backoff_initial = 2.0`. -/
def _perform_request (maxRetries : Nat) (backoffInitial : Int)
    (script : List HttpResult) : Except OAErr J × List Int :=
  performAux maxRetries script backoffInitial []

theorem performAux_resp (rem : Nat) (status : Int) (ra : Option Int)
    (body : Str) (jb : Option J) (rest : List HttpResult)
    (backoff : Int) (sleeps : List Int) :
    performAux (rem + 1) (.resp status ra body jb :: rest) backoff sleeps =
      if status = 429 then
        if rem = 0 then (.error .rateLimited, sleeps)
        else performAux rem rest (backoff * 2) (sleeps ++ [ra.getD backoff])
      else if 400 ≤ status then (.error (.badStatus status (body.take 200)), sleeps)
      else match jb with
        | some j => (.ok j, sleeps)
        | none => (.error .invalidJson, sleeps) := rfl

/-- C9: with the default budget of 3 attempts and initial backoff 2, the
upstream client (i) retries timeouts and connection-level failures, sleeping
2 then 4 seconds (exponential doubling) and failing permanently only on the
third failure; (ii) on HTTP 429 sleeps the `Retry-After` value when the
header is present and the current backoff otherwise, again failing only when
attempts are exhausted; (iii) on any other status ≥ 400 fails immediately —
regardless of what later attempts would have returned — surfacing the status
and the body truncated to 200 characters, with no sleeps; (iv) a success
status whose body is not valid JSON is an immediate hard error; and (v) a
success status with a JSON body returns that payload. -/
theorem claim_C9 :
    (_perform_request 3 2 [.timeoutExc, .timeoutExc, .timeoutExc] =
      (.error .timedOut, [2, 4])) ∧
    (∀ m1 m2 m3 : Str,
      _perform_request 3 2 [.httpErrorExc m1, .httpErrorExc m2, .httpErrorExc m3] =
        (.error (.reqFailed m3), [2, 4])) ∧
    (∀ (h1 h2 h3 : Option Int) (b1 b2 b3 : Str) (j1 j2 j3 : Option J),
      _perform_request 3 2
          [.resp 429 h1 b1 j1, .resp 429 h2 b2 j2, .resp 429 h3 b3 j3] =
        (.error .rateLimited, [h1.getD 2, h2.getD 4])) ∧
    (∀ (status : Int) (ra : Option Int) (body : Str) (jb : Option J)
        (rest : List HttpResult), 400 ≤ status → status ≠ 429 →
      _perform_request 3 2 (.resp status ra body jb :: rest) =
        (.error (.badStatus status (body.take 200)), [])) ∧
    (∀ (status : Int) (ra : Option Int) (body : Str) (rest : List HttpResult),
      status < 400 →
      _perform_request 3 2 (.resp status ra body none :: rest) =
        (.error .invalidJson, [])) ∧
    (∀ (status : Int) (ra : Option Int) (body : Str) (j : J)
        (rest : List HttpResult), status < 400 →
      _perform_request 3 2 (.resp status ra body (some j) :: rest) =
        (.ok j, [])) := by
  refine ⟨rfl, fun m1 m2 m3 => rfl, fun h1 h2 h3 b1 b2 b3 j1 j2 j3 => rfl,
    ?_, ?_, ?_⟩
  · intro status ra body jb rest h4 h429
    refine Eq.trans (performAux_resp 2 status ra body jb rest 2 []) ?_
    rw [if_neg h429, if_pos h4]
  · intro status ra body rest hlt
    refine Eq.trans (performAux_resp 2 status ra body none rest 2 []) ?_
    rw [if_neg (by omega : ¬ status = 429), if_neg (by omega : ¬ 400 ≤ status)]
  · intro status ra body j rest hlt
    refine Eq.trans (performAux_resp 2 status ra body (some j) rest 2 []) ?_
    rw [if_neg (by omega : ¬ status = 429), if_neg (by omega : ¬ 400 ≤ status)]

/-- Witness for C9 at concrete responses: a 404 fails immediately with the
truncated body, a 200 with non-JSON body is a hard error, and a 200 with a
JSON body succeeds. -/
theorem claim_C9_witness :
    _perform_request 3 2 [.resp 404 none "not found".data none] =
      (.error (.badStatus 404 (List.take 200 "not found".data)), []) ∧
    _perform_request 3 2 [.resp 200 none "nope".data none] =
      (.error .invalidJson, []) ∧
    _perform_request 3 2 [.resp 200 none "ok".data (some (J.obj []))] =
      (.ok (J.obj []), []) :=
  ⟨claim_C9.2.2.2.1 404 none "not found".data none [] (by decide) (by decide),
   claim_C9.2.2.2.2.1 200 none "nope".data [] (by decide),
   claim_C9.2.2.2.2.2 200 none "ok".data (J.obj []) [] (by decide)⟩

/-- Outcome of the upstream fetch inside the cache-miss branch of
`search_papers` (search.py lines 329-355): `requests.get` may raise
`requests.exceptions.Timeout` or another `requests.exceptions.RequestException`,
some other `Exception` may be raised while fetching or parsing, or the
response JSON is obtained. -/
inductive FetchOutcome where
  | timeoutRaise : FetchOutcome
  | requestExc : Str → FetchOutcome
  | otherExc : Str → FetchOutcome
  | fetched : J → FetchOutcome

/-- Outcome of the `SearchCacheService.save_to_cache` call (search.py lines
363-371): the insert/commit either succeeds or raises an `Exception`
(search_cache.py lines 114-157 contain no exception handling of their own,
so e.g. a failing `session.commit()` propagates). -/
inductive StoreOutcome where
  | stored : StoreOutcome
  | storeRaise : Str → StoreOutcome

/-- A FastAPI `HTTPException` as raised by `search_papers`. -/
structure HTTPExceptionM where
  status_code : Int
  detail : Str

/-- The cache-miss branch of `search_papers` (search.py lines 329-378): the
single `try` block spans both the upstream fetch and the
`SearchCacheService.save_to_cache` call, and its handlers map
`Timeout` to HTTP 504, other `RequestException`s to HTTP 502, and every
other `Exception` — including one raised by `save_to_cache` after a
successful fetch — to HTTP 500 with detail `"Search error: ..."`.
`.ok data` means the handler proceeds to build the `SearchResponse` from the
freshly fetched payload. -/
def searchMissBranch (fetch : FetchOutcome) (store : StoreOutcome) :
    Except HTTPExceptionM J :=
  match fetch with
  | .timeoutRaise => .error ⟨504, "Search request timed out".data⟩
  | .requestExc msg => .error ⟨502, "OpenAlex API error: ".data ++ msg⟩
  | .otherExc msg => .error ⟨500, "Search error: ".data ++ msg⟩
  | .fetched data =>
    match store with
    | .stored => .ok data
    | .storeRaise msg => .error ⟨500, "Search error: ".data ++ msg⟩

/-- C3 is refuted by the code: because `save_to_cache` is called inside the
same `try` whose catch-all converts any `Exception` into an HTTP 500, a
search whose upstream fetch succeeds but whose cache write fails returns
`HTTPException(500, "Search error: ...")` to the caller instead of the
freshly fetched result — for every fetched payload and store failure, the
branch never returns the payload. -/
theorem claim_C3 :
    searchMissBranch (.fetched (J.obj [("results".data, J.arr [])]))
        (.storeRaise "DB unavailable".data) =
      .error ⟨500, "Search error: DB unavailable".data⟩ ∧
    (∀ (d : J) (msg : Str),
      searchMissBranch (.fetched d) (.storeRaise msg) ≠ .ok d) ∧
    (∀ d : J, searchMissBranch (.fetched d) .stored = .ok d) := by
  refine ⟨rfl, ?_, fun d => rfl⟩
  intro d msg h
  exact absurd h (by simp [searchMissBranch])
